import Mathlib

/-!
# Verification of the gf180mcu layout/text utilities

Shallow embedding of the pure computational cores of the repository's
scripts, over `List Char` for Python strings and `ℚ` for Python floats
(the scripts' arithmetic on design-rule constants is exact decimal
arithmetic, which `ℚ` represents exactly).

Sections:
* string utilities shared by several scripts (Python `str.split`,
  substring containment, decimal numerals);
* `cell_categorization.py` (`categorize_cell`);
* `generate_store.py` (`generate_store_module` text, `main` validation);
* `dense_via_array.py` (`create_dense_via_array`, `create_optimized_via_array`);
* `metal_grid_with_vias.py` (`create_metal_grid`);
* `extract_stdcell_sizes.py` (`extract_cell_size` regex search);
* `stdcell_grid.py` (`group_cells_by_base_and_size`).
-/

/-! ## Python `str.split("__")`

`splitDU l` models Python's `l.split("__")`: a left-to-right scan that,
at each position, either consumes a `"__"` separator (starting a new
part) or moves the current character into the current part. -/

def splitDU : List Char → List (List Char)
  | [] => [[]]
  | [c] => [[c]]
  | c :: d :: rest =>
    if c = '_' ∧ d = '_' then [] :: splitDU rest
    else (c :: (splitDU (d :: rest)).headD []) :: (splitDU (d :: rest)).tail

theorem splitDU_sep_eq (r : List Char) : splitDU ('_' :: '_' :: r) = [] :: splitDU r := by
  rw [splitDU]
  simp

theorem splitDU_cons_eq {c : Char} {r : List Char} (h : ¬(c = '_' ∧ r.head? = some '_')) :
    splitDU (c :: r) = (c :: (splitDU r).headD []) :: (splitDU r).tail := by
  cases r with
  | nil => rfl
  | cons d r' =>
    have h' : ¬(c = '_' ∧ d = '_') := by
      rintro ⟨rfl, rfl⟩
      exact h ⟨rfl, rfl⟩
    rw [splitDU, if_neg h']

/-- Python `l.split("__")[-1]` (`l.split(sep)` is never empty). -/
def lastPartDU (l : List Char) : List Char := (splitDU l).getLastD []

/-- `"__"` occurs in `l` as a contiguous substring. -/
def ddIn (l : List Char) : Prop := ['_', '_'] <:+: l

instance (l : List Char) : Decidable (ddIn l) := by unfold ddIn; infer_instance

theorem splitDU_ne_nil : ∀ l, splitDU l ≠ []
  | [] => by simp [splitDU]
  | [c] => by simp [splitDU]
  | c :: d :: rest => by
    rw [splitDU]
    split <;> simp

theorem ddIn_cons {c : Char} {l : List Char} (h : ¬(c = '_' ∧ l.head? = some '_')) :
    ddIn (c :: l) ↔ ddIn l := by
  constructor
  · rintro ⟨s, t, hst⟩
    cases s with
    | nil =>
      simp only [List.nil_append, List.cons_append] at hst
      injection hst with h1 h2
      exact absurd ⟨h1.symm, by rw [← h2]; rfl⟩ h
    | cons x s' =>
      simp only [List.cons_append] at hst
      injection hst with h1 h2
      exact ⟨s', t, h2⟩
  · rintro ⟨s, t, hst⟩
    exact ⟨c :: s, t, by rw [← hst]; simp⟩

theorem not_ddIn_nil : ¬ ddIn [] := by decide

theorem splitDU_of_not_ddIn : ∀ l, ¬ ddIn l → splitDU l = [l]
  | [], _ => by simp [splitDU]
  | c :: rest, h => by
    have hc : ¬(c = '_' ∧ rest.head? = some '_') := by
      rintro ⟨rfl, hh⟩
      cases rest with
      | nil => simp at hh
      | cons y r' =>
        simp at hh
        exact h ⟨[], r', by simp [hh]⟩
    have h' : ¬ ddIn rest := fun hd => h ((ddIn_cons hc).mpr hd)
    rw [splitDU_cons_eq hc, splitDU_of_not_ddIn rest h']
    simp

theorem splitDU_tail_ne_nil : ∀ l, ddIn l → (splitDU l).tail ≠ []
  | [], h => absurd h not_ddIn_nil
  | c :: rest, h => by
    by_cases hc : c = '_' ∧ rest.head? = some '_'
    · obtain ⟨rfl, hh⟩ := hc
      cases rest with
      | nil => simp at hh
      | cons y r' =>
        simp at hh
        subst hh
        rw [splitDU_sep_eq]
        simpa using splitDU_ne_nil r'
    · rw [splitDU_cons_eq hc]
      have h' : ddIn rest := (ddIn_cons hc).mp h
      simpa using splitDU_tail_ne_nil rest h'

theorem getLastD_indep {α : Type} {l : List α} (h : l ≠ []) (a b : α) :
    l.getLastD a = l.getLastD b := by
  rw [List.getLastD_eq_getLast?, List.getLastD_eq_getLast?]
  cases hl : l.getLast? with
  | none => exact absurd (List.getLast?_eq_none_iff.mp hl) h
  | some x => simp

theorem lastPartDU_nil : lastPartDU [] = [] := rfl

theorem lastPartDU_sep (r : List Char) : lastPartDU ('_' :: '_' :: r) = lastPartDU r := by
  unfold lastPartDU
  rw [splitDU_sep_eq, List.getLastD_cons]

theorem lastPartDU_cons {c : Char} {r : List Char} (h : ¬(c = '_' ∧ r.head? = some '_')) :
    lastPartDU (c :: r) = if ddIn r then lastPartDU r else c :: r := by
  unfold lastPartDU
  rw [splitDU_cons_eq h]
  by_cases hd : ddIn r
  · rw [if_pos hd]
    obtain ⟨p, ps, hps⟩ : ∃ p ps, splitDU r = p :: ps := by
      cases hsp : splitDU r with
      | nil => exact absurd hsp (splitDU_ne_nil r)
      | cons p ps => exact ⟨p, ps, rfl⟩
    have hps' : ps ≠ [] := by
      have := splitDU_tail_ne_nil r hd
      rw [hps] at this
      simpa using this
    rw [hps]
    simp only [List.headD_cons, List.tail_cons, List.getLastD_cons]
    exact getLastD_indep hps' _ _
  · rw [if_neg hd, splitDU_of_not_ddIn r hd]
    simp

/-! ## Size-suffix stripping and the category table (`cell_categorization.py`)

The regex `_(?:[1-9]|1[0-9]|2[0-9]|3[0-2]|64)$` removes a trailing
underscore-plus-size-token; the valid tokens are the decimal numerals of
1..32 and 64. -/

def sizeTokens : List (List Char) :=
  (((List.range 32).map (fun n => n + 1)) ++ [64]).map (fun n => (Nat.repr n).data)

/-- Python `re.sub(r'_(?:[1-9]|1[0-9]|2[0-9]|3[0-2]|64)$', '', l)`:
if `l` ends with `'_'` followed by a valid size token, remove that
suffix, else return `l` unchanged.  (The anchored alternation matches
exactly when some token is the full trailing segment after an
underscore.) -/
def stripSize (l : List Char) : List Char :=
  match sizeTokens.find? (fun t => decide (('_' :: t) <:+ l)) with
  | some t => l.take (l.length - (t.length + 1))
  | none => l

/-- The ordered category table of `cell_categorization.categorize_cell`. -/
def categories : List (String × List (List Char)) :=
  [("clock", ["clk", "icgt"].map String.data),
   ("aoi_oai", ["aoi", "oai"].map String.data),
   ("arithmetic", ["add", "addf", "addh"].map String.data),
   ("buffers", ["inv", "buf", "bufz", "clkbuf", "clkinv"].map String.data),
   ("logic_gates", ["and", "or", "nand", "nor", "xor", "xnor"].map String.data),
   ("flip_flops", ["dff", "sdff"].map String.data),
   ("latches", ["lat"].map String.data),
   ("mux", ["mux"].map String.data),
   ("delay", ["dly"].map String.data),
   ("special", ["fill", "tie", "endcap", "antenna", "hold"].map String.data)]

/-- The normalized base name `name_lower` computed by `categorize_cell`:
take the part after the last `"__"`, strip the size suffix, lower-case. -/
def normalizeName (name : List Char) : List Char :=
  (stripSize (lastPartDU name)).map Char.toLower

/-- `any(pattern in name_lower for pattern in patterns)` for one table row. -/
def rowMatches (nl : List Char) (row : String × List (List Char)) : Bool :=
  row.2.any (fun kw => decide (kw <:+: nl))

/-- `cell_categorization.categorize_cell`: empty name is "other";
otherwise strip the library prefix (text up to the last `"__"`), strip
the size suffix, lower-case, and return the first category of the table
one of whose keywords occurs in the result, defaulting to "other". -/
def categorize_cell (name : List Char) : String :=
  if name = [] then "other"
  else
    match categories.find? (rowMatches (normalizeName name)) with
    | some row => row.1
    | none => "other"

example : categorize_cell "gf180mcu_fd_sc_mcu7t5v0__and2_1".data = "logic_gates" := by decide
example : categorize_cell "clkbuf_2".data = "clock" := by decide
example : categorize_cell "buf_16".data = "buffers" := by decide
example : categorize_cell "custom".data = "other" := by decide
example : categorize_cell [] = "other" := by decide
example : categorize_cell "latq_1".data = "latches" := by decide

/-! ## Supporting lemmas about `lastPartDU` and `stripSize` -/

theorem lastPartDU_of_not_ddIn {l : List Char} (h : ¬ ddIn l) : lastPartDU l = l := by
  unfold lastPartDU
  rw [splitDU_of_not_ddIn l h]
  rfl

theorem ddIn_mem {l : List Char} (h : ddIn l) : '_' ∈ l := by
  obtain ⟨s, t, rfl⟩ := h
  simp

/-- If `b` has no `"__"` and does not start with `'_'`, then
`(a ++ b).split("__")[-1]` still ends with all of `b`. -/
theorem suffix_lastPartDU : ∀ (a b : List Char), ¬ ddIn b → b.head? ≠ some '_' →
    b <:+ lastPartDU (a ++ b)
  | [], b, hb, _ => by
    rw [List.nil_append, lastPartDU_of_not_ddIn hb]
  | c :: a', b, hb, hhd => by
    rw [List.cons_append]
    by_cases hc : c = '_' ∧ (a' ++ b).head? = some '_'
    · obtain ⟨rfl, hh⟩ := hc
      cases a' with
      | nil =>
        rw [List.nil_append] at hh
        exact absurd hh hhd
      | cons y a'' =>
        simp at hh
        subst hh
        rw [List.cons_append, lastPartDU_sep]
        exact suffix_lastPartDU a'' b hb hhd
    · rw [lastPartDU_cons hc]
      by_cases hd : ddIn (a' ++ b)
      · rw [if_pos hd]
        exact suffix_lastPartDU a' b hb hhd
      · rw [if_neg hd]
        exact (List.suffix_append a' b).trans (List.suffix_cons c _)

/-- A list made of an underscore-free part, one underscore, and another
underscore-free part contains no `"__"`. -/
theorem not_ddIn_sep_append : ∀ (xs ys : List Char), '_' ∉ xs → '_' ∉ ys →
    ¬ ddIn (xs ++ '_' :: ys)
  | [], ys, _, hys => by
    rintro ⟨s, t, hst⟩
    cases s with
    | nil =>
      simp at hst
      exact hys (hst ▸ List.mem_cons_self '_' t)
    | cons x s' =>
      rw [List.nil_append] at hst
      simp only [List.cons_append] at hst
      injection hst with h1 h2
      exact hys (ddIn_mem ⟨s', t, h2⟩)
  | x :: xs', ys, hxs, hys => by
    intro hd
    have hx : x ≠ '_' := fun h => hxs (h ▸ List.mem_cons_self x xs')
    rw [List.cons_append] at hd
    have := (ddIn_cons (by rintro ⟨rfl, -⟩; exact hx rfl)).mp hd
    exact not_ddIn_sep_append xs' ys (fun h => hxs (List.mem_cons_of_mem x h)) hys this

theorem sizeTokens_facts : ∀ t ∈ sizeTokens, t ≠ [] ∧ '_' ∉ t ∧ t.length ≤ 2 := by decide

theorem suffix_of_suffix_length_le {α : Type} {l₁ l₂ l : List α}
    (h₁ : l₁ <:+ l) (h₂ : l₂ <:+ l) (hl : l₁.length ≤ l₂.length) : l₁ <:+ l₂ := by
  rw [← List.reverse_prefix] at h₁ h₂ ⊢
  exact List.prefix_of_prefix_length_le h₁ h₂ (by simpa using hl)

theorem suffix_of_suffix_cons {α : Type} {l m : List α} {c : α}
    (h : l <:+ c :: m) (hl : l.length ≤ m.length) : l <:+ m := by
  obtain ⟨s, hs⟩ := h
  cases s with
  | nil =>
    simp at hs
    subst hs
    simp at hl
  | cons x s' =>
    rw [List.cons_append] at hs
    injection hs with _ h2
    exact ⟨s', h2⟩

/-- Stripping the size suffix from `u ++ "_" ++ sz` (with `sz` a valid
size token) yields `u`. -/
theorem stripSize_append_token {u sz : List Char} (hsz : sz ∈ sizeTokens) :
    stripSize (u ++ '_' :: sz) = u := by
  unfold stripSize
  have hsuf : ('_' :: sz) <:+ (u ++ '_' :: sz) := List.suffix_append u _
  have hsome : (sizeTokens.find? (fun t => decide (('_' :: t) <:+ (u ++ '_' :: sz)))).isSome := by
    rw [List.find?_isSome]
    exact ⟨sz, hsz, by simp [hsuf]⟩
  obtain ⟨t, ht⟩ := Option.isSome_iff_exists.mp hsome
  rw [ht]
  have htmem : t ∈ sizeTokens := List.mem_of_find?_eq_some ht
  have htsuf : ('_' :: t) <:+ (u ++ '_' :: sz) := by simpa using List.find?_some ht
  have hteq : t = sz := by
    rcases Nat.lt_trichotomy t.length sz.length with hlt | heq | hgt
    · have : ('_' :: t) <:+ ('_' :: sz) :=
        suffix_of_suffix_length_le htsuf hsuf (by simpa using Nat.le_of_lt hlt)
      have : ('_' :: t) <:+ sz := suffix_of_suffix_cons this (by simpa using hlt)
      exact absurd (this.subset (List.mem_cons_self '_' t)) (sizeTokens_facts sz hsz).2.1
    · have : ('_' :: t) <:+ ('_' :: sz) :=
        suffix_of_suffix_length_le htsuf hsuf (by simpa using Nat.le_of_eq heq)
      have := List.IsSuffix.eq_of_length this (by simpa using heq)
      injection this
    · have : ('_' :: sz) <:+ ('_' :: t) :=
        suffix_of_suffix_length_le hsuf htsuf (by simpa using Nat.le_of_lt hgt)
      have : ('_' :: sz) <:+ t := suffix_of_suffix_cons this (by simpa using hgt)
      exact absurd (this.subset (List.mem_cons_self '_' sz)) (sizeTokens_facts t htmem).2.1
  subst hteq
  show List.take ((u ++ '_' :: t).length - (t.length + 1)) (u ++ '_' :: t) = u
  have hlen : (u ++ '_' :: t).length - (t.length + 1) = u.length := by
    simp [List.length_append]
  rw [hlen]
  exact List.take_left u ('_' :: t)

theorem keyword_facts : ∀ row ∈ categories, ∀ kw ∈ row.2,
    kw ≠ [] ∧ '_' ∉ kw ∧ kw.map Char.toLower = kw := by decide

theorem find?_append_none {α : Type} {p : α → Bool} :
    ∀ (pre l : List α), (∀ x ∈ pre, p x = false) →
      List.find? p (pre ++ l) = List.find? p l
  | [], _, _ => rfl
  | x :: pre', l, h => by
    rw [List.cons_append,
      List.find?_cons_of_neg _ (by simp [h x (List.mem_cons_self x pre')]),
      find?_append_none pre' l (fun y hy => h y (List.mem_cons_of_mem x hy))]

/-- C1: (i) a name of the shape `anyprefix_<keyword>_<size>` whose
normalized base matches only the keyword's category is put in that
category; (ii) a nonempty name matching no row is "other"; (iii) when a
name matches several rows, the first row of the table wins. -/
theorem categorize_cell_keyword_spec :
    (∀ (p kw sz : List Char) (row : String × List (List Char)),
       row ∈ categories → kw ∈ row.2 → sz ∈ sizeTokens →
       (∀ row' ∈ categories,
          rowMatches (normalizeName (p ++ '_' :: (kw ++ '_' :: sz))) row' = true →
          row'.1 = row.1) →
       categorize_cell (p ++ '_' :: (kw ++ '_' :: sz)) = row.1)
  ∧ (∀ name, name ≠ [] →
       (∀ row ∈ categories, rowMatches (normalizeName name) row = false) →
       categorize_cell name = "other")
  ∧ (∀ name, name ≠ [] →
       ∀ (pre post : List (String × List (List Char))) (row : String × List (List Char)),
         categories = pre ++ row :: post →
         rowMatches (normalizeName name) row = true →
         (∀ row' ∈ pre, rowMatches (normalizeName name) row' = false) →
         categorize_cell name = row.1) := by
  refine ⟨?_, ?_, ?_⟩
  · intro p kw sz row hrow hkw hsz huniq
    have hname : p ++ '_' :: (kw ++ '_' :: sz) ≠ [] := by simp
    have hkwf := keyword_facts row hrow kw hkw
    have hszf := sizeTokens_facts sz hsz
    have hb1 : ¬ ddIn (kw ++ '_' :: sz) := not_ddIn_sep_append kw sz hkwf.2.1 hszf.2.1
    have hb2 : (kw ++ '_' :: sz).head? ≠ some '_' := by
      cases hk : kw with
      | nil => exact absurd hk hkwf.1
      | cons k0 kw' =>
        have hk0 : k0 ≠ '_' := fun h => hkwf.2.1 (hk ▸ h ▸ List.mem_cons_self k0 kw')
        simp [hk]
        exact fun h => hk0 h
    have hsuf : (kw ++ '_' :: sz) <:+ lastPartDU (p ++ '_' :: (kw ++ '_' :: sz)) := by
      have := suffix_lastPartDU (p ++ ['_']) (kw ++ '_' :: sz) hb1 hb2
      simpa [List.append_assoc] using this
    obtain ⟨u, hu⟩ := hsuf
    have hstrip : stripSize (lastPartDU (p ++ '_' :: (kw ++ '_' :: sz))) = u ++ kw := by
      rw [← hu, ← List.append_assoc]
      exact stripSize_append_token hsz
    have hnl : normalizeName (p ++ '_' :: (kw ++ '_' :: sz)) = u.map Char.toLower ++ kw := by
      unfold normalizeName
      rw [hstrip, List.map_append, hkwf.2.2]
    have hmatch : rowMatches (normalizeName (p ++ '_' :: (kw ++ '_' :: sz))) row = true := by
      unfold rowMatches
      rw [List.any_eq_true]
      refine ⟨kw, hkw, ?_⟩
      rw [hnl]
      simp only [decide_eq_true_eq]
      exact ⟨u.map Char.toLower, [], by simp⟩
    unfold categorize_cell
    rw [if_neg hname]
    have hsome : (categories.find?
        (rowMatches (normalizeName (p ++ '_' :: (kw ++ '_' :: sz))))).isSome := by
      rw [List.find?_isSome]
      exact ⟨row, hrow, hmatch⟩
    obtain ⟨r, hr⟩ := Option.isSome_iff_exists.mp hsome
    rw [hr]
    exact huniq r (List.mem_of_find?_eq_some hr) (List.find?_some hr)
  · intro name hname hnone
    unfold categorize_cell
    rw [if_neg hname, List.find?_eq_none.mpr (fun x hx => by rw [hnone x hx]; simp)]
  · intro name hname pre post row hcat hmatch hpre
    unfold categorize_cell
    rw [if_neg hname, hcat,
      find?_append_none pre _ (fun x hx => hpre x hx),
      List.find?_cons_of_pos _ hmatch]

/-- Witness for C1, exercising all three parts at concrete cells. -/
theorem categorize_cell_keyword_spec_witness :
    categorize_cell "foo_mux_2".data = "mux"
  ∧ categorize_cell "zzz".data = "other"
  ∧ categorize_cell "dffq_4".data = "flip_flops" := by
  refine ⟨?_, ?_, ?_⟩
  · exact categorize_cell_keyword_spec.1 "foo".data "mux".data "2".data
      ("mux", ["mux"].map String.data) (by decide) (by decide) (by decide) (by decide)
  · exact categorize_cell_keyword_spec.2.1 "zzz".data (by decide) (by decide)
  · exact categorize_cell_keyword_spec.2.2 "dffq_4".data (by decide)
      [("clock", ["clk", "icgt"].map String.data),
       ("aoi_oai", ["aoi", "oai"].map String.data),
       ("arithmetic", ["add", "addf", "addh"].map String.data),
       ("buffers", ["inv", "buf", "bufz", "clkbuf", "clkinv"].map String.data),
       ("logic_gates", ["and", "or", "nand", "nor", "xor", "xnor"].map String.data)]
      [("latches", ["lat"].map String.data),
       ("mux", ["mux"].map String.data),
       ("delay", ["dly"].map String.data),
       ("special", ["fill", "tie", "endcap", "antenna", "hold"].map String.data)]
      ("flip_flops", ["dff", "sdff"].map String.data)
      (by decide) (by decide) (by decide)

/-- C9: a name whose normalized base contains "clkbuf" or "clkinv" is
categorized "clock": the buffer-row keywords "clkbuf"/"clkinv" are
shadowed by the clock row's "clk". -/
theorem categorize_cell_clkbuf_unreachable (name : List Char) (hne : name ≠ [])
    (h : "clkbuf".data <:+: normalizeName name ∨ "clkinv".data <:+: normalizeName name) :
    categorize_cell name = "clock" := by
  have hclk : "clk".data <:+: normalizeName name := by
    cases h with
    | inl h => exact List.IsInfix.trans (by decide) h
    | inr h => exact List.IsInfix.trans (by decide) h
  have hm : rowMatches (normalizeName name) ("clock", ["clk", "icgt"].map String.data) = true := by
    unfold rowMatches
    rw [List.any_eq_true]
    exact ⟨"clk".data, by decide, by simpa using hclk⟩
  unfold categorize_cell
  rw [if_neg hne]
  have hc : categories = ("clock", ["clk", "icgt"].map String.data) ::
      [("aoi_oai", ["aoi", "oai"].map String.data),
       ("arithmetic", ["add", "addf", "addh"].map String.data),
       ("buffers", ["inv", "buf", "bufz", "clkbuf", "clkinv"].map String.data),
       ("logic_gates", ["and", "or", "nand", "nor", "xor", "xnor"].map String.data),
       ("flip_flops", ["dff", "sdff"].map String.data),
       ("latches", ["lat"].map String.data),
       ("mux", ["mux"].map String.data),
       ("delay", ["dly"].map String.data),
       ("special", ["fill", "tie", "endcap", "antenna", "hold"].map String.data)] := rfl
  rw [hc, List.find?_cons_of_pos _ hm]

/-- Witness for C9 at a concrete clkbuf cell. -/
theorem categorize_cell_clkbuf_unreachable_witness :
    categorize_cell "x_clkbuf_4".data = "clock" :=
  categorize_cell_clkbuf_unreachable "x_clkbuf_4".data (by decide) (by decide)

/-! ## C8: stripping the library prefix

`categorize_cell (lib ++ "__" ++ cell) = categorize_cell cell`.  The
split on `"__"` may leave one leading underscore more or fewer than
splitting `cell` alone (when `lib` ends in underscores), so we show the
category only depends on the name after leading underscores are
dropped. -/

/-- The category computed from a base name (everything `categorize_cell`
does after taking the part following the last `"__"`). -/
def catBase (l : List Char) : String :=
  match categories.find? (rowMatches ((stripSize l).map Char.toLower)) with
  | some row => row.1
  | none => "other"

theorem categorize_eq_catBase (name : List Char) :
    categorize_cell name = if name = [] then "other" else catBase (lastPartDU name) := rfl

theorem find?_congr_mem {α : Type} {p q : α → Bool} :
    ∀ l : List α, (∀ x ∈ l, p x = q x) → List.find? p l = List.find? q l
  | [], _ => rfl
  | x :: xs, h => by
    rw [List.find?_cons, List.find?_cons, h x (List.mem_cons_self x xs),
      find?_congr_mem xs (fun y hy => h y (List.mem_cons_of_mem x hy))]

theorem infix_cons_underscore {kw l : List Char} (hne : kw ≠ []) (hns : '_' ∉ kw) :
    kw <:+: ('_' :: l) ↔ kw <:+: l := by
  constructor
  · rintro ⟨s, t, hst⟩
    cases s with
    | nil =>
      cases kw with
      | nil => exact absurd rfl hne
      | cons k0 kw' =>
        simp only [List.nil_append, List.cons_append] at hst
        injection hst with h1 _
        exact absurd (h1 ▸ List.mem_cons_self k0 kw') hns
    | cons x s' =>
      simp only [List.cons_append] at hst
      injection hst with _ h2
      exact ⟨s', t, h2⟩
  · exact List.infix_cons

theorem rowMatches_underscore {row : String × List (List Char)} (hrow : row ∈ categories)
    (nl : List Char) : rowMatches ('_' :: nl) row = rowMatches nl row := by
  unfold rowMatches
  rw [Bool.eq_iff_iff, List.any_eq_true, List.any_eq_true]
  constructor
  · rintro ⟨kw, hkw, hk⟩
    have hf := keyword_facts row hrow kw hkw
    exact ⟨kw, hkw, by
      simp only [decide_eq_true_eq] at hk ⊢
      exact (infix_cons_underscore hf.1 hf.2.1).mp hk⟩
  · rintro ⟨kw, hkw, hk⟩
    have hf := keyword_facts row hrow kw hkw
    exact ⟨kw, hkw, by
      simp only [decide_eq_true_eq] at hk ⊢
      exact (infix_cons_underscore hf.1 hf.2.1).mpr hk⟩

theorem stripSize_eq_self {l : List Char} (h : ∀ t ∈ sizeTokens, ¬ ('_' :: t) <:+ l) :
    stripSize l = l := by
  unfold stripSize
  rw [List.find?_eq_none.mpr (fun t ht => by simpa using h t ht)]

theorem catBase_underscore_token : ∀ t ∈ sizeTokens,
    catBase ('_' :: t) = "other" ∧ catBase t = "other" := by decide

theorem catBase_underscore : ∀ l, catBase ('_' :: l) = catBase l := by
  intro l
  by_cases hex : ∃ t ∈ sizeTokens, ('_' :: t) <:+ l
  · obtain ⟨sz, hsz, hsuf⟩ := hex
    obtain ⟨u, hu⟩ := hsuf
    subst hu
    unfold catBase
    rw [show ('_' :: (u ++ '_' :: sz)) = ('_' :: u) ++ '_' :: sz from rfl,
      stripSize_append_token hsz, stripSize_append_token hsz]
    rw [show ('_' :: u).map Char.toLower = '_' :: u.map Char.toLower from by
      simp [Char.toLower]]
    rw [find?_congr_mem categories (fun row hrow => rowMatches_underscore hrow _)]
  · by_cases htok : l ∈ sizeTokens
    · exact ((catBase_underscore_token l htok).1).trans
        ((catBase_underscore_token l htok).2).symm
    · have hstrip_l : stripSize l = l :=
        stripSize_eq_self (fun t ht hsuf => hex ⟨t, ht, hsuf⟩)
      have hstrip_ul : stripSize ('_' :: l) = '_' :: l := by
        apply stripSize_eq_self
        intro t ht hsuf
        rcases Nat.lt_or_ge l.length (t.length + 1) with hlen | hlen
        · have : ('_' :: t) = '_' :: l := by
            apply List.IsSuffix.eq_of_length hsuf
            simp only [List.length_cons]
            have h2 : t.length ≤ l.length := by
              have := hsuf.length_le
              simpa using this
            omega
          injection this with _ h2
          exact htok (h2 ▸ ht)
        · exact hex ⟨t, ht, suffix_of_suffix_cons hsuf (by simpa using hlen)⟩
      unfold catBase
      rw [hstrip_l, hstrip_ul,
        show ('_' :: l).map Char.toLower = '_' :: l.map Char.toLower from by
          simp [Char.toLower]]
      rw [find?_congr_mem categories (fun row hrow => rowMatches_underscore hrow _)]

theorem catBase_dropWhile : ∀ l : List Char, catBase l = catBase (l.dropWhile (· == '_'))
  | [] => rfl
  | c :: r => by
    by_cases hc : c = '_'
    · subst hc
      rw [catBase_underscore r, List.dropWhile_cons_of_pos (by simp)]
      exact catBase_dropWhile r
    · rw [List.dropWhile_cons_of_neg (by simpa using hc)]

/-- The last `"__"`-part of `'_' :: b` agrees with that of `b` after
dropping leading underscores. -/
theorem lastPartDU_underscore_core : ∀ b : List Char,
    (lastPartDU ('_' :: b)).dropWhile (· == '_') = (lastPartDU b).dropWhile (· == '_')
  | [] => by
    rw [lastPartDU_cons (by simp), if_neg not_ddIn_nil, lastPartDU_nil]
    rfl
  | c :: b' => by
    by_cases hc : c = '_'
    · subst hc
      rw [lastPartDU_sep]
      exact (lastPartDU_underscore_core b').symm ▸ rfl
    · have hhd : ¬('_' = '_' ∧ (c :: b').head? = some '_') := by
        rintro ⟨-, hh⟩
        simp at hh
        exact hc hh
      rw [lastPartDU_cons hhd]
      by_cases hd : ddIn (c :: b')
      · rw [if_pos hd]
      · rw [if_neg hd, lastPartDU_of_not_ddIn hd,
          List.dropWhile_cons_of_pos (by simp)]

/-- The last `"__"`-part of `lib ++ "__" ++ cell` agrees with that of
`cell` after dropping leading underscores. -/
theorem lastPartDU_sep_core : ∀ (a b : List Char),
    (lastPartDU (a ++ '_' :: '_' :: b)).dropWhile (· == '_') =
      (lastPartDU b).dropWhile (· == '_')
  | [], b => by rw [List.nil_append, lastPartDU_sep]
  | c :: a', b => by
    rw [List.cons_append]
    by_cases hc : c = '_' ∧ (a' ++ '_' :: '_' :: b).head? = some '_'
    · obtain ⟨rfl, hh⟩ := hc
      cases a' with
      | nil =>
        rw [List.nil_append, lastPartDU_sep]
        exact lastPartDU_underscore_core b
      | cons y a'' =>
        simp at hh
        subst hh
        rw [List.cons_append, lastPartDU_sep]
        exact lastPartDU_sep_core a'' b
    · rw [lastPartDU_cons hc]
      have hd : ddIn (a' ++ '_' :: '_' :: b) := by
        have := List.infix_append a' ['_', '_'] b
        unfold ddIn
        simpa using this
      rw [if_pos hd]
      exact lastPartDU_sep_core a' b

theorem catBase_nil : catBase [] = "other" := by decide

/-- C8: `categorize_cell` on a library-qualified name `lib ++ "__" ++ cell`
agrees with `categorize_cell` on the bare cell name, for every `lib` and
`cell`. -/
theorem categorize_cell_library_prefix (lib cell : List Char) :
    categorize_cell (lib ++ '_' :: '_' :: cell) = categorize_cell cell := by
  rw [categorize_eq_catBase, categorize_eq_catBase, if_neg (by simp)]
  by_cases hcell : cell = []
  · subst hcell
    rw [if_pos rfl, catBase_dropWhile, lastPartDU_sep_core lib [], lastPartDU_nil]
    exact catBase_nil
  · rw [if_neg hcell, catBase_dropWhile, lastPartDU_sep_core lib cell,
      ← catBase_dropWhile]

example : categorize_cell ("mylib".data ++ '_' :: '_' :: "xor3_2".data) =
    categorize_cell "xor3_2".data := by decide
example : categorize_cell ("inv".data ++ '_' :: '_' :: "custom".data) = "other" := by decide

/-! ## `dense_via_array.py`: via-array generators

Python floats are modelled by `ℚ` (the inputs are exact decimal
constants).  `int(x)` truncates toward zero. -/

/-- Python `int(q)`: truncation toward zero. -/
def pyIntTrunc (q : ℚ) : ℤ := q.num.tdiv (q.den : ℤ)

/-- Output of `create_dense_via_array`: the computed pitch and per-row
count, the two full-area metal rectangles, and the lower-left corners of
the placed `via_size`-square vias. -/
structure DenseViaArray where
  via_pitch : ℚ
  num_vias_per_row : ℕ
  m5_lo : ℚ × ℚ
  m5_hi : ℚ × ℚ
  mt_lo : ℚ × ℚ
  mt_hi : ℚ × ℚ
  vias : List (ℚ × ℚ)

/-- `create_dense_via_array`: uniform grid, one via per `(i, j)` with
center `(i*pitch + pitch/2, j*pitch + pitch/2)`. -/
def create_dense_via_array (size via_size via_spacing : ℚ) : DenseViaArray :=
  let via_pitch := via_size + via_spacing
  let n := (pyIntTrunc (size / via_pitch)).toNat
  { via_pitch := via_pitch
    num_vias_per_row := n
    m5_lo := (0, 0)
    m5_hi := (size, size)
    mt_lo := (0, 0)
    mt_hi := (size, size)
    vias := (List.range n).flatMap (fun (i : ℕ) =>
      (List.range n).map (fun (j : ℕ) =>
        ((i : ℚ) * via_pitch + via_pitch / 2 - via_size / 2,
         (j : ℚ) * via_pitch + via_pitch / 2 - via_size / 2))) }

/-- Output of `create_optimized_via_array`: pitch, `num_vias`, the
enclosure-padded metal rectangle, and lower-left corners of placed vias. -/
structure OptViaArray where
  via_pitch : ℚ
  num_vias : ℕ
  metal_lo : ℚ × ℚ
  metal_hi : ℚ × ℚ
  vias : List (ℚ × ℚ)

/-- `create_optimized_via_array`: staggered grid; odd rows are offset by
`pitch/2`, rows/columns beyond the region edge are skipped. -/
def create_optimized_via_array (size via_size via_spacing via_enclosure : ℚ) : OptViaArray :=
  let via_pitch := via_size + via_spacing
  let n := (pyIntTrunc (size / via_pitch)).toNat
  { via_pitch := via_pitch
    num_vias := n
    metal_lo := (-via_enclosure, -via_enclosure)
    metal_hi := (size + via_enclosure, size + via_enclosure)
    vias := (List.range (n + 1)).flatMap (fun (i : ℕ) =>
      let row_offset : ℚ := if i % 2 = 1 then via_pitch / 2 else 0
      let y : ℚ := (i : ℚ) * via_pitch
      if y < size then
        (List.range (n + 1)).filterMap (fun (j : ℕ) =>
          let x : ℚ := (j : ℚ) * via_pitch + row_offset
          if x < size then some (x, y) else none)
      else []) }

/-- Horizontal edge-to-edge separation of two axis-aligned `s`-squares
placed at lower-left corners `p` and `q`. -/
def sepX (p q : ℚ × ℚ) (s : ℚ) : ℚ := max (|p.1 - q.1| - s) 0

/-- Vertical edge-to-edge separation of two axis-aligned `s`-squares. -/
def sepY (p q : ℚ × ℚ) (s : ℚ) : ℚ := max (|p.2 - q.2| - s) 0

/-- Two axis-aligned `s`-squares at lower-left corners `p`, `q` overlap
(in a set of positive area). -/
def viasOverlap (p q : ℚ × ℚ) (s : ℚ) : Prop := |p.1 - q.1| < s ∧ |p.2 - q.2| < s


theorem floor_5000_27 : ⌊(5000 : ℚ) / 27⌋ = 185 := by
  rw [Int.floor_eq_iff]
  norm_num

theorem dense_n_eq : (pyIntTrunc (100 / ((26 : ℚ) / 100 + 28 / 100))).toNat = 185 := by
  have h1 : (100 : ℚ) / ((26 : ℚ) / 100 + 28 / 100) = 5000 / 27 := by norm_num
  unfold pyIntTrunc
  rw [h1, show ((5000 : ℚ) / 27).num = 5000 from by norm_num,
    show ((5000 : ℚ) / 27).den = 27 from by norm_num]
  decide

theorem length_grid {α : Type} (n m : ℕ) (f : ℕ → ℕ → α) :
    ((List.range n).flatMap (fun i => (List.range m).map (f i))).length = n * m := by
  rw [List.length_flatMap]
  have h : List.map (List.length ∘ fun i => (List.range m).map (f i)) (List.range n) =
      List.replicate n m := by
    rw [List.eq_replicate_iff]
    refine ⟨by simp, ?_⟩
    intro b hb
    rw [List.mem_map] at hb
    obtain ⟨a, -, rfl⟩ := hb
    simp
  rw [h, List.sum_replicate, smul_eq_mul]

/-- C4: with the default design rules, the uniform grid has pitch 0.54,
185 vias per row, 185² = 34225 vias in total, and every via square lies
inside `[0,100] × [0,100]`. -/
theorem create_dense_via_array_default :
    (create_dense_via_array 100 (26 / 100) (28 / 100)).via_pitch = 54 / 100
  ∧ (create_dense_via_array 100 (26 / 100) (28 / 100)).num_vias_per_row = 185
  ∧ (create_dense_via_array 100 (26 / 100) (28 / 100)).vias.length = 34225
  ∧ ∀ v ∈ (create_dense_via_array 100 (26 / 100) (28 / 100)).vias,
      0 ≤ v.1 ∧ v.1 + 26 / 100 ≤ 100 ∧ 0 ≤ v.2 ∧ v.2 + 26 / 100 ≤ 100 := by
  refine ⟨by norm_num [create_dense_via_array], ?_, ?_, ?_⟩
  · simp only [create_dense_via_array]
    exact dense_n_eq
  · simp only [create_dense_via_array, dense_n_eq]
    rw [length_grid]
  · intro v hv
    simp only [create_dense_via_array, dense_n_eq] at hv
    rw [List.mem_flatMap] at hv
    obtain ⟨i, hi, hv2⟩ := hv
    rw [List.mem_map] at hv2
    obtain ⟨j, hj, rfl⟩ := hv2
    rw [List.mem_range] at hi hj
    have hi' : (i : ℚ) ≤ 184 := by exact_mod_cast Nat.le_of_lt_succ hi
    have hj' : (j : ℚ) ≤ 184 := by exact_mod_cast Nat.le_of_lt_succ hj
    have hi0 : (0 : ℚ) ≤ (i : ℚ) := Nat.cast_nonneg i
    have hj0 : (0 : ℚ) ≤ (j : ℚ) := Nat.cast_nonneg j
    refine ⟨by dsimp only; nlinarith, by dsimp only; nlinarith,
      by dsimp only; nlinarith, by dsimp only; nlinarith⟩

/-- Witness for the bounds part of C4 at the corner via `(7/50, 7/50)`. -/
theorem create_dense_via_array_default_witness :
    0 ≤ ((7 : ℚ) / 50, (7 : ℚ) / 50).1
  ∧ ((7 : ℚ) / 50, (7 : ℚ) / 50).1 + 26 / 100 ≤ 100
  ∧ 0 ≤ ((7 : ℚ) / 50, (7 : ℚ) / 50).2
  ∧ ((7 : ℚ) / 50, (7 : ℚ) / 50).2 + 26 / 100 ≤ 100 := by
  apply create_dense_via_array_default.2.2.2
  simp only [create_dense_via_array, dense_n_eq]
  rw [List.mem_flatMap]
  refine ⟨0, List.mem_range.mpr (by norm_num), ?_⟩
  rw [List.mem_map]
  refine ⟨0, List.mem_range.mpr (by norm_num), ?_⟩
  norm_num

/-- Every via of the default staggered array sits at
`(j*0.54 + offset_i, i*0.54)` for some `i, j < 186`. -/
theorem mem_opt_vias {p : ℚ × ℚ}
    (h : p ∈ (create_optimized_via_array 100 (26 / 100) (28 / 100) (9 / 100)).vias) :
    ∃ i j : ℕ, i < 186 ∧ j < 186 ∧
      p = ((j : ℚ) * (54 / 100) + (if i % 2 = 1 then 27 / 100 else 0),
           (i : ℚ) * (54 / 100)) := by
  simp only [create_optimized_via_array, dense_n_eq] at h
  rw [List.mem_flatMap] at h
  obtain ⟨i, hi, hmem⟩ := h
  rw [List.mem_range] at hi
  by_cases hy : (i : ℚ) * ((26 : ℚ) / 100 + 28 / 100) < 100
  · rw [if_pos hy] at hmem
    rw [List.mem_filterMap] at hmem
    obtain ⟨j, hj, hjeq⟩ := hmem
    rw [List.mem_range] at hj
    by_cases hx : (j : ℚ) * ((26 : ℚ) / 100 + 28 / 100) +
        (if i % 2 = 1 then ((26 : ℚ) / 100 + 28 / 100) / 2 else 0) < 100
    · rw [if_pos hx] at hjeq
      refine ⟨i, j, hi, hj, ?_⟩
      rw [← Option.some.inj hjeq]
      norm_num
    · rw [if_neg hx] at hjeq
      exact absurd hjeq (by simp)
  · rw [if_neg hy] at hmem
    simp at hmem

/-- If two squares are separated by at least 0.54 center-to-center along
one axis, the 0.26-squares are 0.28 apart and do not overlap. -/
theorem sep_spacing_of_axis {p q : ℚ × ℚ}
    (h : (54 / 100 : ℚ) ≤ |p.1 - q.1| ∨ (54 / 100 : ℚ) ≤ |p.2 - q.2|) :
    (28 / 100 : ℚ) ^ 2 ≤ (sepX p q (26 / 100)) ^ 2 + (sepY p q (26 / 100)) ^ 2
  ∧ ¬ viasOverlap p q (26 / 100) := by
  constructor
  · cases h with
    | inl h =>
      have hsx : (28 / 100 : ℚ) ≤ sepX p q (26 / 100) := by
        unfold sepX
        exact le_max_of_le_left (by linarith)
      have h1 : ((28 : ℚ) / 100) ^ 2 ≤ (sepX p q (26 / 100)) ^ 2 :=
        pow_le_pow_left₀ (by norm_num) hsx 2
      have h2 : (0 : ℚ) ≤ (sepY p q (26 / 100)) ^ 2 := sq_nonneg _
      linarith
    | inr h =>
      have hsy : (28 / 100 : ℚ) ≤ sepY p q (26 / 100) := by
        unfold sepY
        exact le_max_of_le_left (by linarith)
      have h1 : ((28 : ℚ) / 100) ^ 2 ≤ (sepY p q (26 / 100)) ^ 2 :=
        pow_le_pow_left₀ (by norm_num) hsy 2
      have h2 : (0 : ℚ) ≤ (sepX p q (26 / 100)) ^ 2 := sq_nonneg _
      linarith
  · rintro ⟨h1, h2⟩
    cases h with
    | inl h => linarith
    | inr h => linarith

/-- C3: in the default staggered array, any two distinct vias have
edge-to-edge distance at least 0.28 (stated on the squared distance) and
do not overlap. -/
theorem create_optimized_via_array_spacing
    (p q : ℚ × ℚ)
    (hp : p ∈ (create_optimized_via_array 100 (26 / 100) (28 / 100) (9 / 100)).vias)
    (hq : q ∈ (create_optimized_via_array 100 (26 / 100) (28 / 100) (9 / 100)).vias)
    (hne : p ≠ q) :
    (28 / 100 : ℚ) ^ 2 ≤ (sepX p q (26 / 100)) ^ 2 + (sepY p q (26 / 100)) ^ 2
  ∧ ¬ viasOverlap p q (26 / 100) := by
  obtain ⟨i, j, hi, hj, rfl⟩ := mem_opt_vias hp
  obtain ⟨i', j', hi', hj', rfl⟩ := mem_opt_vias hq
  apply sep_spacing_of_axis
  by_cases hii : i = i'
  · subst hii
    have hjj : j ≠ j' := by
      rintro rfl
      exact hne rfl
    left
    simp only
    have h1 : ((j : ℚ) * (54 / 100) + (if i % 2 = 1 then (27 : ℚ) / 100 else 0)) -
        ((j' : ℚ) * (54 / 100) + (if i % 2 = 1 then (27 : ℚ) / 100 else 0)) =
        (((j : ℤ) - (j' : ℤ) : ℤ) : ℚ) * (54 / 100) := by
      push_cast
      ring
    rw [h1, abs_mul, abs_of_nonneg (by norm_num : (0 : ℚ) ≤ 54 / 100)]
    have hz : ((j : ℤ) - (j' : ℤ)) ≠ 0 := sub_ne_zero.mpr (by exact_mod_cast hjj)
    have h3 : (1 : ℤ) ≤ |(j : ℤ) - (j' : ℤ)| := Int.one_le_abs hz
    have h2 : (1 : ℚ) ≤ |(((j : ℤ) - (j' : ℤ) : ℤ) : ℚ)| := by
      rw [← Int.cast_abs]
      exact_mod_cast h3
    nlinarith
  · right
    simp only
    have h1 : (i : ℚ) * (54 / 100) - (i' : ℚ) * (54 / 100) =
        (((i : ℤ) - (i' : ℤ) : ℤ) : ℚ) * (54 / 100) := by
      push_cast
      ring
    rw [h1, abs_mul, abs_of_nonneg (by norm_num : (0 : ℚ) ≤ 54 / 100)]
    have hz : ((i : ℤ) - (i' : ℤ)) ≠ 0 := sub_ne_zero.mpr (by exact_mod_cast hii)
    have h3 : (1 : ℤ) ≤ |(i : ℤ) - (i' : ℤ)| := Int.one_le_abs hz
    have h2 : (1 : ℚ) ≤ |(((i : ℤ) - (i' : ℤ) : ℤ) : ℚ)| := by
      rw [← Int.cast_abs]
      exact_mod_cast h3
    nlinarith

/-- Witness for C3 at the two adjacent first-row vias `(0,0)`, `(0.54,0)`. -/
theorem create_optimized_via_array_spacing_witness :
    (28 / 100 : ℚ) ^ 2 ≤
      (sepX ((0 : ℚ), (0 : ℚ)) ((54 / 100 : ℚ), (0 : ℚ)) (26 / 100)) ^ 2 +
      (sepY ((0 : ℚ), (0 : ℚ)) ((54 / 100 : ℚ), (0 : ℚ)) (26 / 100)) ^ 2
  ∧ ¬ viasOverlap ((0 : ℚ), (0 : ℚ)) ((54 / 100 : ℚ), (0 : ℚ)) (26 / 100) := by
  apply create_optimized_via_array_spacing
  · simp only [create_optimized_via_array, dense_n_eq]
    rw [List.mem_flatMap]
    refine ⟨0, List.mem_range.mpr (by norm_num), ?_⟩
    rw [if_pos (by norm_num)]
    rw [List.mem_filterMap]
    refine ⟨0, List.mem_range.mpr (by norm_num), ?_⟩
    rw [if_pos (by norm_num)]
    norm_num
  · simp only [create_optimized_via_array, dense_n_eq]
    rw [List.mem_flatMap]
    refine ⟨0, List.mem_range.mpr (by norm_num), ?_⟩
    rw [if_pos (by norm_num)]
    rw [List.mem_filterMap]
    refine ⟨1, List.mem_range.mpr (by norm_num), ?_⟩
    rw [if_pos (by norm_num)]
    norm_num
  · intro h
    rw [Prod.mk.injEq] at h
    norm_num at h

/-! ## `metal_grid_with_vias.py` -/

/-- Output of `create_metal_grid`: the pitch, the horizontal M5 line
positions, the vertical MT line positions, and the via lower-left
corners.  `none` models the uncaught `ZeroDivisionError` raised by
`grid_size / (num_lines - 1)` when `num_lines = 1`. -/
structure MetalGrid where
  pitch : ℚ
  m5_ys : List ℚ
  mt_xs : List ℚ
  vias : List (ℚ × ℚ)

/-- `create_metal_grid`. -/
def create_metal_grid (grid_size : ℚ) (num_lines : ℤ)
    (m5_width mt_width via_size min_spacing : ℚ) : Option MetalGrid :=
  if num_lines - 1 = 0 then none
  else
    let pitch := max (grid_size / ((num_lines : ℚ) - 1)) (m5_width + mt_width + min_spacing)
    some { pitch := pitch
           m5_ys := (List.range num_lines.toNat).map (fun (i : ℕ) => (i : ℚ) * pitch)
           mt_xs := (List.range num_lines.toNat).map (fun (i : ℕ) => (i : ℚ) * pitch)
           vias := (List.range num_lines.toNat).flatMap (fun (i : ℕ) =>
             (List.range num_lines.toNat).map (fun (j : ℕ) =>
               ((i : ℚ) * pitch - via_size / 2, (j : ℚ) * pitch - via_size / 2))) }

/-- C10: with `num_lines = 1` (and the script's default geometry
parameters) the pitch computation divides by zero, so the call fails;
for every `num_lines ≥ 2` it succeeds. -/
theorem create_metal_grid_num_lines :
    create_metal_grid 100 1 (44 / 100) (44 / 100) (26 / 100) (46 / 100) = none
  ∧ ∀ (gs : ℚ) (n : ℤ) (a b c d : ℚ), 2 ≤ n →
      (create_metal_grid gs n a b c d).isSome = true := by
  constructor
  · rfl
  · intro gs n a b c d hn
    unfold create_metal_grid
    rw [if_neg (by omega)]
    rfl

/-- Witness for C10 at `num_lines = 2`. -/
theorem create_metal_grid_num_lines_witness :
    (create_metal_grid 100 2 (44 / 100) (44 / 100) (26 / 100) (46 / 100)).isSome = true :=
  create_metal_grid_num_lines.2 100 2 (44 / 100) (44 / 100) (26 / 100) (46 / 100) (by decide)

/-! ## `generate_store.py` `main`: CLI validation

`store_main` models the control flow of `main` on two argument strings:
`none` means an error was printed and `main` returned before
`generate_store_module` was called (so no file is written); `some (r, c)`
means `generate_store_module r c` is invoked. -/

/-- Python whitespace (`str.strip` / `int` both strip these). -/
def isPySpace (c : Char) : Bool :=
  c == ' ' || c == '\t' || c == '\n' || c == '\r' || c == '\x0b' || c == '\x0c'

/-- Numeric value of an ASCII digit. -/
def digitVal (c : Char) : ℕ := c.toNat - 48

/-- Continuation of `pyDigits?`: digits with single interior underscores
(Python 3 numeric literals accepted by `int`). -/
def pyDigitsAux : ℕ → List Char → Option ℕ
  | acc, [] => some acc
  | acc, '_' :: c :: rest =>
    if c.isDigit then pyDigitsAux (acc * 10 + digitVal c) rest else none
  | acc, c :: rest =>
    if c.isDigit then pyDigitsAux (acc * 10 + digitVal c) rest else none

/-- A nonempty ASCII digit string (single interior underscores allowed),
as accepted by Python `int`, with its value. -/
def pyDigits? : List Char → Option ℕ
  | [] => none
  | c :: rest => if c.isDigit then pyDigitsAux (digitVal c) rest else none

/-- Python `str.strip()`. -/
def stripPy (s : List Char) : List Char :=
  ((s.dropWhile isPySpace).reverse.dropWhile isPySpace).reverse

/-- Python `int(s)` on a string: strip whitespace, optional sign, digits;
`none` models the `ValueError` caught by `main`. -/
def pyInt? (s : List Char) : Option ℤ :=
  match stripPy s with
  | '+' :: rest => (pyDigits? rest).map (fun n => (n : ℤ))
  | '-' :: rest => (pyDigits? rest).map (fun n => -(n : ℤ))
  | rest => (pyDigits? rest).map (fun n => (n : ℤ))

/-- `generate_store.main` on two CLI arguments: parse both as `int`
(on failure print an error and return), then validate `rows ≥ 1` and
`cols ≥ 1` (on failure print an error and return); only then call
`generate_store_module rows cols`. -/
def store_main (arg1 arg2 : List Char) : Option (ℤ × ℤ) :=
  match pyInt? arg1, pyInt? arg2 with
  | some rows, some cols => if rows ≤ 0 ∨ cols ≤ 0 then none else some (rows, cols)
  | _, _ => none

/-- C7: whenever `generate_store_module` is reached both inputs are
positive integers, and the example invalid inputs (`0`, `-1`,
non-integer text) are all rejected before any output is produced. -/
theorem store_main_validation :
    (∀ (a b : List Char) (rc : ℤ × ℤ), store_main a b = some rc → 0 < rc.1 ∧ 0 < rc.2)
  ∧ store_main "0".data "5".data = none
  ∧ store_main "3".data "-1".data = none
  ∧ store_main "abc".data "2".data = none := by
  refine ⟨?_, by decide, by decide, by decide⟩
  intro a b rc h
  unfold store_main at h
  cases h1 : pyInt? a with
  | none => rw [h1] at h; dsimp only at h; exact absurd h (by simp)
  | some rows =>
    cases h2 : pyInt? b with
    | none => rw [h1, h2] at h; dsimp only at h; exact absurd h (by simp)
    | some cols =>
      rw [h1, h2] at h
      dsimp only at h
      by_cases hv : rows ≤ 0 ∨ cols ≤ 0
      · rw [if_pos hv] at h
        exact absurd h (by simp)
      · rw [if_neg hv] at h
        push_neg at hv
        rw [← Option.some.inj h]
        exact ⟨by omega, by omega⟩

/-- Witness for C7: valid inputs reach generation with positive sizes. -/
theorem store_main_validation_witness :
    0 < ((2 : ℤ), (3 : ℤ)).1 ∧ 0 < ((2 : ℤ), (3 : ℤ)).2 :=
  store_main_validation.1 "2".data "3".data ((2 : ℤ), (3 : ℤ)) (by decide)

/-! ## `stdcell_grid.py`: `group_cells_by_base_and_size`

Cells are modelled by their names.  The regex
`(.+?)_(?:([1-9]|1[0-9]|2[0-9]|3[0-2]|64))$` (lazy base, anchored size)
matches iff the name splits as `base ++ "_" ++ token` with `base`
nonempty and `token` a valid size token; laziness picks the shortest
such base (the split is in fact unique, since tokens contain no
underscore). -/

/-- Scan for the lazy-regex split: `pre` is the candidate base built so
far; at each position, if the current character is `'_'`, the base is
nonempty and the entire remainder is a size token, match. -/
def pbsAux : List Char → List Char → Option (List Char × List Char)
  | _, [] => none
  | pre, c :: rest =>
    if c = '_' ∧ pre ≠ [] ∧ rest ∈ sizeTokens then some (pre, rest)
    else pbsAux (pre ++ [c]) rest

/-- `re.match(r'(.+?)_(?:([1-9]|1[0-9]|2[0-9]|3[0-2]|64))$', name)`,
returning `(base, size)` groups. -/
def parseBaseSize (name : List Char) : Option (List Char × List Char) :=
  pbsAux [] name

/-- Append an entry to the group of `key`, preserving first-insertion
order of keys (Python `defaultdict` iteration order). -/
def addEntry : List (List Char × List (List Char × List Char)) → List Char →
    (List Char × List Char) → List (List Char × List (List Char × List Char))
  | [], key, e => [(key, [e])]
  | (k, es) :: gs, key, e =>
    if k = key then (k, es ++ [e]) :: gs else (k, es) :: addEntry gs key e

/-- `int(size)` for the digit-string sizes used as the Python sort key. -/
def natOfDigits (l : List Char) : ℕ := l.foldl (fun acc c => acc * 10 + digitVal c) 0

/-- Stable insertion of an entry into a size-sorted list (equal keys keep
arrival order, as Python's stable `sort` does). -/
def insertBySize (e : List Char × List Char) :
    List (List Char × List Char) → List (List Char × List Char)
  | [] => [e]
  | f :: fs =>
    if natOfDigits f.1 ≤ natOfDigits e.1 then f :: insertBySize e fs else e :: f :: fs

/-- `group.sort(key=lambda x: int(x[0]))`: a stable ascending sort by
numeric size (stable sorts by the same key agree, so insertion sort
models Python's sort exactly). -/
def sortBySize (es : List (List Char × List Char)) : List (List Char × List Char) :=
  es.foldl (fun acc e => insertBySize e acc) []

/-- `group_cells_by_base_and_size`: group `(size, cell)` entries by base
name (unparseable names keyed by themselves with size "1"), then sort
each group by numeric size. -/
def group_cells_by_base_and_size (cells : List (List Char)) :
    List (List Char × List (List Char × List Char)) :=
  (cells.foldl (fun groups name =>
    match parseBaseSize name with
    | some (base, size) => addEntry groups base (size, name)
    | none => addEntry groups name (['1'], name)) []).map
    (fun g => (g.1, sortBySize g.2))

theorem addEntry_adds (groups : List (List Char × List (List Char × List Char)))
    (key : List Char) (e : List Char × List Char) :
    ∃ es, (key, es) ∈ addEntry groups key e ∧ e ∈ es := by
  induction groups with
  | nil => exact ⟨[e], List.mem_singleton.mpr rfl, List.mem_singleton.mpr rfl⟩
  | cons g gs ih =>
    obtain ⟨k, es⟩ := g
    by_cases hk : k = key
    · subst hk
      rw [addEntry, if_pos rfl]
      exact ⟨es ++ [e], List.mem_cons_self _ _, List.mem_append_right es (by simp)⟩
    · rw [addEntry, if_neg hk]
      obtain ⟨es', h1, h2⟩ := ih
      exact ⟨es', List.mem_cons_of_mem _ h1, h2⟩

theorem addEntry_preserves {groups : List (List Char × List (List Char × List Char))}
    {k : List Char} {es : List (List Char × List Char)}
    {e' : List Char × List Char} (hmem : (k, es) ∈ groups) (he : e' ∈ es)
    (key : List Char) (e : List Char × List Char) :
    ∃ es', (k, es') ∈ addEntry groups key e ∧ e' ∈ es' := by
  induction groups with
  | nil => simp at hmem
  | cons g gs ih =>
    obtain ⟨k0, es0⟩ := g
    by_cases hk : k0 = key
    · subst hk
      rw [addEntry, if_pos rfl]
      rcases List.mem_cons.mp hmem with heq | htail
      · obtain ⟨h1, h2⟩ := Prod.mk.injEq .. ▸ heq
        injection heq with h1 h2
        subst h1
        subst h2
        exact ⟨es ++ [e], List.mem_cons_self _ _, List.mem_append_left _ he⟩
      · exact ⟨es, List.mem_cons_of_mem _ htail, he⟩
    · rw [addEntry, if_neg hk]
      rcases List.mem_cons.mp hmem with heq | htail
      · injection heq with h1 h2
        subst h1
        subst h2
        exact ⟨es, List.mem_cons_self _ _, he⟩
      · obtain ⟨es', h1, h2⟩ := ih htail
        exact ⟨es', List.mem_cons_of_mem _ h1, h2⟩

/-- One step of the grouping fold. -/
def groupStep (groups : List (List Char × List (List Char × List Char)))
    (name : List Char) : List (List Char × List (List Char × List Char)) :=
  match parseBaseSize name with
  | some (base, size) => addEntry groups base (size, name)
  | none => addEntry groups name (['1'], name)

theorem group_cells_eq_fold (cells : List (List Char)) :
    group_cells_by_base_and_size cells =
      (cells.foldl groupStep []).map (fun g => (g.1, sortBySize g.2)) := rfl

theorem foldl_groupStep_preserves :
    ∀ (cells : List (List Char)) (acc : List (List Char × List (List Char × List Char)))
      {k : List Char} {es : List (List Char × List Char)} {e' : List Char × List Char},
      (k, es) ∈ acc → e' ∈ es →
      ∃ es', (k, es') ∈ cells.foldl groupStep acc ∧ e' ∈ es'
  | [], acc, k, es, e', hmem, he => ⟨es, hmem, he⟩
  | c :: cells', acc, k, es, e', hmem, he => by
    rw [List.foldl_cons]
    have hstep : ∃ es', (k, es') ∈ groupStep acc c ∧ e' ∈ es' := by
      unfold groupStep
      cases parseBaseSize c with
      | none => exact addEntry_preserves hmem he _ _
      | some bs => exact addEntry_preserves hmem he _ _
    obtain ⟨es', h1, h2⟩ := hstep
    exact foldl_groupStep_preserves cells' (groupStep acc c) h1 h2

theorem foldl_groupStep_hit :
    ∀ (cells : List (List Char)) (acc : List (List Char × List (List Char × List Char)))
      {name : List Char}, name ∈ cells → parseBaseSize name = none →
      ∃ es, (name, es) ∈ cells.foldl groupStep acc ∧ (['1'], name) ∈ es
  | [], _, name, hmem, _ => by simp at hmem
  | c :: cells', acc, name, hmem, hparse => by
    rw [List.foldl_cons]
    rcases List.mem_cons.mp hmem with rfl | htail
    · have hstep : ∃ es, (name, es) ∈ groupStep acc name ∧ (['1'], name) ∈ es := by
        unfold groupStep
        rw [hparse]
        exact addEntry_adds acc name (['1'], name)
      obtain ⟨es, h1, h2⟩ := hstep
      exact foldl_groupStep_preserves cells' _ h1 h2
    · exact foldl_groupStep_hit cells' _ htail hparse

theorem mem_insertBySize {a e : List Char × List Char} :
    ∀ l, a ∈ insertBySize e l ↔ a = e ∨ a ∈ l
  | [] => by simp [insertBySize]
  | f :: fs => by
    unfold insertBySize
    by_cases hf : natOfDigits f.1 ≤ natOfDigits e.1
    · rw [if_pos hf]
      rw [List.mem_cons, mem_insertBySize fs, List.mem_cons]
      tauto
    · rw [if_neg hf]
      simp only [List.mem_cons]

theorem mem_sortBySize_aux {a : List Char × List Char} :
    ∀ (es acc : List (List Char × List Char)),
      a ∈ es.foldl (fun acc e => insertBySize e acc) acc ↔ a ∈ acc ∨ a ∈ es
  | [], acc => by simp
  | e :: es', acc => by
    rw [List.foldl_cons, mem_sortBySize_aux es' (insertBySize e acc), mem_insertBySize,
      List.mem_cons]
    tauto

theorem mem_sortBySize {a : List Char × List Char} {es : List (List Char × List Char)} :
    a ∈ sortBySize es ↔ a ∈ es := by
  unfold sortBySize
  rw [mem_sortBySize_aux]
  simp

theorem pairwise_insertBySize {e : List Char × List Char} :
    ∀ {l}, l.Pairwise (fun a b => natOfDigits a.1 ≤ natOfDigits b.1) →
      (insertBySize e l).Pairwise (fun a b => natOfDigits a.1 ≤ natOfDigits b.1) := by
  intro l
  induction l with
  | nil => intro; simp [insertBySize]
  | cons f fs ih =>
    intro h
    rw [List.pairwise_cons] at h
    unfold insertBySize
    by_cases hf : natOfDigits f.1 ≤ natOfDigits e.1
    · rw [if_pos hf, List.pairwise_cons]
      refine ⟨?_, ih h.2⟩
      intro a ha
      rcases (mem_insertBySize fs).mp ha with rfl | hmem
      · exact hf
      · exact h.1 a hmem
    · rw [if_neg hf, List.pairwise_cons]
      refine ⟨?_, List.pairwise_cons.mpr h⟩
      intro a ha
      rcases List.mem_cons.mp ha with rfl | hmem
      · exact le_of_not_le hf
      · exact le_trans (le_of_not_le hf) (h.1 a hmem)

theorem pairwise_sortBySize_aux :
    ∀ (es acc : List (List Char × List Char)),
      acc.Pairwise (fun a b => natOfDigits a.1 ≤ natOfDigits b.1) →
      (es.foldl (fun acc e => insertBySize e acc) acc).Pairwise
        (fun a b => natOfDigits a.1 ≤ natOfDigits b.1)
  | [], _, h => h
  | e :: es', acc, h => by
    rw [List.foldl_cons]
    exact pairwise_sortBySize_aux es' (insertBySize e acc) (pairwise_insertBySize h)

theorem pairwise_sortBySize (es : List (List Char × List Char)) :
    (sortBySize es).Pairwise (fun a b => natOfDigits a.1 ≤ natOfDigits b.1) :=
  pairwise_sortBySize_aux es [] (by simp)

/-- C6: (i) the documented example groups as stated, already sorted by
numeric size; (ii) any name the size regex rejects lands in the group
keyed by its own full name with size "1"; (iii) every produced group is
sorted ascending by numeric size. -/
theorem group_cells_spec :
    group_cells_by_base_and_size
        ["buf_1".data, "buf_2".data, "buf_16".data, "custom".data] =
      [("buf".data,
        [("1".data, "buf_1".data), ("2".data, "buf_2".data), ("16".data, "buf_16".data)]),
       ("custom".data, [("1".data, "custom".data)])]
  ∧ (∀ (cells : List (List Char)) (name : List Char), name ∈ cells →
       parseBaseSize name = none →
       ∃ es, (name, es) ∈ group_cells_by_base_and_size cells ∧ (['1'], name) ∈ es)
  ∧ (∀ (cells : List (List Char)) (g : List Char × List (List Char × List Char)),
       g ∈ group_cells_by_base_and_size cells →
       g.2.Pairwise (fun a b => natOfDigits a.1 ≤ natOfDigits b.1)) := by
  refine ⟨by decide, ?_, ?_⟩
  · intro cells name hmem hparse
    obtain ⟨es, h1, h2⟩ := foldl_groupStep_hit cells [] hmem hparse
    refine ⟨sortBySize es, ?_, mem_sortBySize.mpr h2⟩
    rw [group_cells_eq_fold, List.mem_map]
    exact ⟨(name, es), h1, rfl⟩
  · intro cells g hg
    rw [group_cells_eq_fold, List.mem_map] at hg
    obtain ⟨g0, -, rfl⟩ := hg
    exact pairwise_sortBySize g0.2

/-- Witness for C6: an unparseable name forms a singleton size-"1"
group. -/
theorem group_cells_spec_witness :
    ∃ es, ("custom".data, es) ∈
        group_cells_by_base_and_size ["buf_1".data, "custom".data]
      ∧ (['1'], "custom".data) ∈ es :=
  group_cells_spec.2.1 ["buf_1".data, "custom".data] "custom".data
    (by decide) (by decide)

/-! ## `extract_stdcell_sizes.py`: the `SIZE ... BY ...` regex

`re.search(r'SIZE\s+(\d+\.\d+)\s+BY\s+(\d+\.\d+)\s*;', content)`: the
leftmost match wins, and each quantifier here is effectively
deterministic (digits, dot and whitespace are disjoint character
classes, so greedy matching never needs to backtrack).  The matcher
returns the four digit groups; `float()` conversion is `pyFloat`. -/

/-- Consume an exact literal prefix. -/
def dropPrefix? : List Char → List Char → Option (List Char)
  | [], s => some s
  | _ :: _, [] => none
  | p :: ps, c :: cs => if p = c then dropPrefix? ps cs else none

/-- Try to match the `SIZE` pattern at the start of `s`, returning the
integer/fraction digit groups of the two numbers. -/
def matchSizeAt (s : List Char) : Option ((List Char × List Char) × (List Char × List Char)) :=
  (dropPrefix? "SIZE".data s).bind (fun s1 =>
    let w1 := s1.span isPySpace
    if w1.1 = [] then none else
    let d1 := w1.2.span Char.isDigit
    if d1.1 = [] then none else
    (dropPrefix? ['.'] d1.2).bind (fun s4 =>
      let d2 := s4.span Char.isDigit
      if d2.1 = [] then none else
      let w2 := d2.2.span isPySpace
      if w2.1 = [] then none else
      (dropPrefix? "BY".data w2.2).bind (fun s7 =>
        let w3 := s7.span isPySpace
        if w3.1 = [] then none else
        let d3 := w3.2.span Char.isDigit
        if d3.1 = [] then none else
        (dropPrefix? ['.'] d3.2).bind (fun s10 =>
          let d4 := s10.span Char.isDigit
          if d4.1 = [] then none else
          let s12 := (d4.2.span isPySpace).2
          (dropPrefix? [';'] s12).map (fun _ => ((d1.1, d2.1), (d3.1, d4.1)))))))

/-- `re.search`: try the pattern at every position, leftmost first. -/
def searchSize : List Char → Option ((List Char × List Char) × (List Char × List Char))
  | [] => none
  | c :: rest =>
    match matchSizeAt (c :: rest) with
    | some r => some r
    | none => searchSize rest

/-- Python `float("<int>.<frac>")`. -/
def pyFloat (g : List Char × List Char) : ℚ :=
  (natOfDigits g.1 : ℚ) + (natOfDigits g.2 : ℚ) / 10 ^ g.2.length

/-- `extract_cell_size` on the file's text: the first regex match gives
`(width, height)`; no match gives `(None, None)` (after a printed
warning), never an exception. -/
def extract_cell_size (text : List Char) : Option (ℚ × ℚ) :=
  (searchSize text).map (fun r => (pyFloat r.1, pyFloat r.2))

/-- C5 counterexample: a text that contains `SIZE 12.500 BY 8.000 ;`
but whose first match is an earlier record, so the extractor returns
(1.0, 2.0), not (12.5, 8.0). -/
theorem extract_cell_size_contains_counterexample :
    "SIZE 12.500 BY 8.000 ;".data <:+:
      "SIZE 1.0 BY 2.0 ; SIZE 12.500 BY 8.000 ;".data
  ∧ extract_cell_size "SIZE 1.0 BY 2.0 ; SIZE 12.500 BY 8.000 ;".data =
      some ((1 : ℚ), (2 : ℚ))
  ∧ ¬ (some ((1 : ℚ), (2 : ℚ)) = some ((25 / 2 : ℚ), (8 : ℚ))) := by
  refine ⟨by decide, ?_, by norm_num⟩
  have hs : searchSize "SIZE 1.0 BY 2.0 ; SIZE 12.500 BY 8.000 ;".data =
      some ((['1'], ['0']), (['2'], ['0'])) := by decide
  unfold extract_cell_size
  rw [hs]
  have h1 : natOfDigits ['1'] = 1 := by decide
  have h2 : natOfDigits ['0'] = 0 := by decide
  have h3 : natOfDigits ['2'] = 2 := by decide
  simp only [Option.map_some', pyFloat]
  rw [h1, h2, h3]
  norm_num

theorem matchSizeAt_target (post : List Char) :
    matchSizeAt ("SIZE 12.500 BY 8.000 ;".data ++ post) =
      some ((['1', '2'], ['5', '0', '0']), (['8'], ['0', '0', '0'])) := rfl

theorem searchSize_append_of_no_early :
    ∀ (pre tail : List Char),
      (∀ n < pre.length, matchSizeAt ((pre ++ tail).drop n) = none) →
      searchSize (pre ++ tail) = searchSize tail
  | [], _, _ => rfl
  | c :: pre', tail, h => by
    rw [List.cons_append]
    have h0 : matchSizeAt (c :: (pre' ++ tail)) = none := by
      have := h 0 (Nat.succ_pos _)
      simpa using this
    rw [searchSize, h0]
    exact searchSize_append_of_no_early pre' tail
      (fun n hn => by
        have := h (n + 1) (by simpa using hn)
        simpa using this)

/-- C5, amended: if the text's first `SIZE ... BY ...` match is the
record `SIZE 12.500 BY 8.000 ;`, the extractor returns width 12.5 and
height 8.0 (area 12.5*8 = 100); a text with no match at any position
yields the null result `none` (and the total model never raises). -/
theorem extract_cell_size_spec :
    (∀ pre post : List Char,
       (∀ n < pre.length,
          matchSizeAt ((pre ++ ("SIZE 12.500 BY 8.000 ;".data ++ post)).drop n) = none) →
       extract_cell_size (pre ++ ("SIZE 12.500 BY 8.000 ;".data ++ post)) =
           some ((25 / 2 : ℚ), (8 : ℚ))
         ∧ (25 / 2 : ℚ) * 8 = 100)
  ∧ (∀ text : List Char, (∀ n, matchSizeAt (text.drop n) = none) →
       extract_cell_size text = none) := by
  constructor
  · intro pre post h
    refine ⟨?_, by norm_num⟩
    unfold extract_cell_size
    rw [searchSize_append_of_no_early pre _ h]
    have hm := matchSizeAt_target post
    have hsearch : searchSize ("SIZE 12.500 BY 8.000 ;".data ++ post) =
        some ((['1', '2'], ['5', '0', '0']), (['8'], ['0', '0', '0'])) := by
      rw [show ("SIZE 12.500 BY 8.000 ;".data ++ post) =
        'S' :: ("IZE 12.500 BY 8.000 ;".data ++ post) from rfl, searchSize]
      rw [show ('S' :: ("IZE 12.500 BY 8.000 ;".data ++ post)) =
        ("SIZE 12.500 BY 8.000 ;".data ++ post) from rfl, hm]
    rw [hsearch]
    have h125 : natOfDigits ['1', '2'] = 12 := by decide
    have h500 : natOfDigits ['5', '0', '0'] = 500 := by decide
    have h8 : natOfDigits ['8'] = 8 := by decide
    have h000 : natOfDigits ['0', '0', '0'] = 0 := by decide
    simp only [Option.map_some', pyFloat]
    rw [h125, h500, h8, h000]
    norm_num
  · intro text h
    unfold extract_cell_size
    have hs : searchSize text = none := by
      induction text with
      | nil => rfl
      | cons c rest ih =>
        have h0 : matchSizeAt (c :: rest) = none := by
          have := h 0
          simpa using this
        rw [searchSize, h0]
        exact ih (fun n => by
          have := h (n + 1)
          simpa using this)
    rw [hs]
    rfl

/-- Witness for C5 (amended): the record alone extracts to (12.5, 8),
and the empty text extracts to the null result. -/
theorem extract_cell_size_spec_witness :
    (extract_cell_size ([] ++ ("SIZE 12.500 BY 8.000 ;".data ++ [])) =
        some ((25 / 2 : ℚ), (8 : ℚ))
      ∧ (25 / 2 : ℚ) * 8 = 100)
  ∧ extract_cell_size [] = none :=
  ⟨extract_cell_size_spec.1 [] [] (fun n hn => absurd hn (Nat.not_lt_zero n)),
   extract_cell_size_spec.2 [] (fun n => by rw [List.drop_nil]; rfl)⟩

/-! ## `generate_store.py`: the generated Verilog text

The generated file is modelled character-for-character.  Decimal
numerals (Python f-string formatting of `int`) are `natDigits` /
`intDigits`.  Occurrences of a pattern in the text are counted by
`countOcc` (number of positions where the pattern starts). -/

/-- `chr(48 + d)`: the ASCII digit character (used with `d < 10`). -/
def digitChar (d : ℕ) : Char := Char.ofNat (48 + d)

/-- Decimal digits of `n`, most significant first, with fuel. -/
def natDigitsAux : ℕ → ℕ → List Char
  | 0, _ => []
  | fuel + 1, n =>
    if n < 10 then [digitChar n] else natDigitsAux fuel (n / 10) ++ [digitChar (n % 10)]

/-- Python `f"{n}"` for a natural number. -/
def natDigits (n : ℕ) : List Char := natDigitsAux (n + 1) n

/-- Python `f"{z}"` for an integer (used for `total_elements - 1`). -/
def intDigits (z : ℤ) : List Char :=
  if z < 0 then '-' :: natDigits z.natAbs else natDigits z.toNat

theorem digitChar_mem {d : ℕ} (h : d < 10) : digitChar d ∈ "0123456789".data := by
  interval_cases d <;> decide

theorem natDigitsAux_mem : ∀ (fuel n : ℕ), ∀ c ∈ natDigitsAux fuel n, c ∈ "0123456789".data
  | 0, _ => by simp [natDigitsAux]
  | fuel + 1, n => by
    intro c hc
    rw [natDigitsAux] at hc
    by_cases h : n < 10
    · rw [if_pos h] at hc
      rw [List.mem_singleton] at hc
      exact hc ▸ digitChar_mem h
    · rw [if_neg h] at hc
      rcases List.mem_append.mp hc with h1 | h2
      · exact natDigitsAux_mem fuel (n / 10) c h1
      · rw [List.mem_singleton] at h2
        exact h2 ▸ digitChar_mem (Nat.mod_lt n (by norm_num))

theorem natDigits_mem {n : ℕ} : ∀ c ∈ natDigits n, c ∈ "0123456789".data :=
  natDigitsAux_mem (n + 1) n

theorem natDigitsAux_ne_nil (fuel n : ℕ) : natDigitsAux (fuel + 1) n ≠ [] := by
  rw [natDigitsAux]
  by_cases h : n < 10
  · rw [if_pos h]; simp
  · rw [if_neg h]; simp

theorem natDigits_ne_nil (n : ℕ) : natDigits n ≠ [] := natDigitsAux_ne_nil n n

theorem intDigits_mem {z : ℤ} : ∀ c ∈ intDigits z, c ∈ "-0123456789".data := by
  intro c hc
  unfold intDigits at hc
  by_cases h : z < 0
  · rw [if_pos h] at hc
    rcases List.mem_cons.mp hc with rfl | hm
    · decide
    · have := natDigits_mem c hm
      simp at this ⊢
      tauto
  · rw [if_neg h] at hc
    have := natDigits_mem c hc
    simp at this ⊢
    tauto

theorem intDigits_ne_nil (z : ℤ) : intDigits z ≠ [] := by
  unfold intDigits
  by_cases h : z < 0
  · rw [if_pos h]; simp
  · rw [if_neg h]; exact natDigits_ne_nil _

/-- Number of positions of `s` at which the pattern `p` starts. -/
def countOcc (p : List Char) : List Char → ℕ
  | [] => 0
  | c :: rest => (if p <+: c :: rest then 1 else 0) + countOcc p rest

/-- A pattern containing `ch` never occurs in a `ch`-free string. -/
theorem countOcc_eq_zero {p : List Char} {ch : Char} (hp : ch ∈ p) :
    ∀ {s : List Char}, (∀ c ∈ s, c ≠ ch) → countOcc p s = 0
  | [], _ => rfl
  | c :: rest, hs => by
    rw [countOcc]
    have hnp : ¬ p <+: c :: rest := by
      intro hpre
      exact hs ch (hpre.subset hp) rfl
    rw [if_neg hnp, countOcc_eq_zero hp (fun x hx => hs x (List.mem_cons_of_mem c hx))]

theorem prefix_head {p : List Char} {c : Char} {s : List Char} (hp : p ≠ [])
    (h : p <+: c :: s) : c ∈ p := by
  cases p with
  | nil => exact absurd rfl hp
  | cons p0 p' =>
    obtain ⟨t, ht⟩ := h
    rw [List.cons_append] at ht
    injection ht with h1 _
    exact h1 ▸ List.mem_cons_self p0 p'

theorem countOcc_mid_free {p b : List Char} (hp : p ≠ []) (hdisj : ∀ c ∈ b, c ∉ p) :
    ∀ {s : List Char}, countOcc p (b ++ s) = countOcc p s := by
  induction b with
  | nil => intro s; rfl
  | cons ch b' ih =>
    intro s
    rw [List.cons_append, countOcc]
    have hnp : ¬ p <+: ch :: (b' ++ s) := fun hpre =>
      hdisj ch (List.mem_cons_self ch b') (prefix_head hp hpre)
    rw [if_neg hnp, ih (fun c hc => hdisj c (List.mem_cons_of_mem ch hc))]
    simp

/-- Splitting a count at a separator block none of whose characters can
appear in the pattern: no occurrence can touch the block, so counts on
the two sides add. -/
theorem countOcc_split_mid {p b : List Char} (hp : p ≠ []) (hb : b ≠ [])
    (hdisj : ∀ c ∈ b, c ∉ p) :
    ∀ (a s : List Char), countOcc p (a ++ b ++ s) = countOcc p a + countOcc p s := by
  intro a
  induction a with
  | nil =>
    intro s
    rw [List.nil_append, countOcc_mid_free hp hdisj]
    simp [countOcc]
  | cons x a' ih =>
    intro s
    rw [List.cons_append, List.cons_append, countOcc, countOcc]
    have hcond : (p <+: x :: (a' ++ b ++ s)) ↔ (p <+: x :: a') := by
      constructor
      · intro hpre
        by_cases hlen : p.length ≤ (x :: a').length
        · have hxa : (x :: a') <+: x :: (a' ++ b ++ s) := by
            refine ⟨b ++ s, ?_⟩
            simp [List.append_assoc]
          exact List.prefix_of_prefix_length_le hpre hxa hlen
        · exfalso
          have hxa : (x :: a') <+: p :=
            List.prefix_of_prefix_length_le
              (⟨b ++ s, by simp [List.append_assoc]⟩ : (x :: a') <+: x :: (a' ++ b ++ s))
              hpre (by omega)
          obtain ⟨p₂, hp₂⟩ := hxa
          have hp₂ne : p₂ ≠ [] := by
            intro h0
            rw [h0, List.append_nil] at hp₂
            rw [← hp₂] at hlen
            simp at hlen
          obtain ⟨t, ht⟩ := hpre
          rw [← hp₂, List.append_assoc] at ht
          injection ht with _ h2
          rw [List.append_assoc] at h2
          have h4 : p₂ ++ t = b ++ s := List.append_cancel_left h2
          cases b with
          | nil => exact hb rfl
          | cons bh b' =>
            cases p₂ with
            | nil => exact hp₂ne rfl
            | cons ph p₂' =>
              rw [List.cons_append, List.cons_append] at h4
              injection h4 with h5 _
              have hphp : ph ∈ p := by
                rw [← hp₂]
                exact List.mem_append_right _ (List.mem_cons_self ph p₂')
              exact hdisj bh (List.mem_cons_self bh b') (h5 ▸ hphp)
      · intro hpre
        exact hpre.trans ⟨b ++ s, by simp [List.append_assoc]⟩
    rw [if_congr hcond rfl rfl]
    have := ih s
    rw [List.append_assoc] at this ⊢
    rw [this]
    omega

/-- Splitting a count at a single separator character that cannot occur
in the pattern. -/
theorem countOcc_sep_char {p : List Char} {ch : Char} (hp : p ≠ []) (hch : ch ∉ p)
    (a s : List Char) : countOcc p (a ++ ch :: s) = countOcc p a + countOcc p s := by
  have := countOcc_split_mid hp (by simp : [ch] ≠ [])
    (fun c hc => by rw [List.mem_singleton] at hc; exact hc ▸ hch) a s
  simpa using this

theorem countOcc_append_nil (p a : List Char) : countOcc p (a ++ []) = countOcc p a := by
  rw [List.append_nil]

/-- Counting over an indexed concatenation of blocks that each end in a
newline (with `'\n'` not in the pattern) and each contain the pattern
`k` times. -/
theorem countOcc_flatMap {p : List Char} (hp : p ≠ []) (hnl : '\n' ∉ p) {k : ℕ}
    {f : ℕ → List Char} :
    ∀ (n : ℕ), (∀ i < n, ∃ g, f i = g ++ ['\n']) → (∀ i < n, countOcc p (f i) = k) →
      ∀ (s : List Char), countOcc p ((List.range n).flatMap f ++ s) = n * k + countOcc p s
  | 0, _, _, s => by simp
  | n + 1, hend, hcnt, s => by
    rw [List.range_succ, List.flatMap_append]
    obtain ⟨g, hg⟩ := hend n (Nat.lt_succ_self n)
    have hcg : countOcc p g = k := by
      have h1 := hcnt n (Nat.lt_succ_self n)
      rw [hg, show (g ++ ['\n']) = g ++ '\n' :: [] from rfl,
        countOcc_sep_char hp hnl g []] at h1
      simpa [countOcc] using h1
    have hsplit : countOcc p (f n ++ s) = countOcc p g + countOcc p s := by
      rw [hg, List.append_assoc]
      exact countOcc_sep_char hp hnl g s
    rw [List.append_assoc, show ([n].flatMap f ++ s) = f n ++ s by simp,
      countOcc_flatMap hp hnl n (fun i hi => hend i (Nat.lt_succ_of_lt hi))
        (fun i hi => hcnt i (Nat.lt_succ_of_lt hi)) (f n ++ s), hsplit, hcg]
    ring

/-- A left factor that ends in `'\n'` (or is empty) splits the count. -/
theorem countOcc_sep_block {p : List Char} (hp : p ≠ []) (hnl : '\n' ∉ p)
    {a : List Char} (ha : a = [] ∨ ∃ b, a = b ++ ['\n']) (s : List Char) :
    countOcc p (a ++ s) = countOcc p a + countOcc p s := by
  rcases ha with rfl | ⟨b, rfl⟩
  · simp [countOcc]
  · have h1 : countOcc p ((b ++ ['\n']) ++ s) = countOcc p b + countOcc p s := by
      rw [List.append_assoc, show ['\n'] ++ s = '\n' :: s from rfl]
      exact countOcc_sep_char hp hnl b s
    have h2 : countOcc p (b ++ ['\n']) = countOcc p b := by
      rw [show (b ++ ['\n']) = b ++ '\n' :: [] from rfl, countOcc_sep_char hp hnl b []]
      simp [countOcc]
    rw [h1, h2]

/-- The header comment of the generated file (`n` = total elements). -/
def storeHeader (n : ℕ) : List Char :=
  "// Description: ".data ++ natDigits n ++ " bits of storage.\n//\n// Contains ".data
    ++ natDigits n ++ " latches in a row/column configuration.\n//\n".data

/-- The ASCII-diagram column header and top border. -/
def storeDiagHeader (cols : ℕ) : List Char :=
  "//         ".data
    ++ (List.range cols).flatMap (fun c => "col".data ++ natDigits c ++ "     ".data)
    ++ "\n//      +".data
    ++ (List.range cols).flatMap (fun _ => "========+".data)
    ++ "\n".data

/-- The cell row of one diagram row (before its dashed border). -/
def storeRowHead (cols r : ℕ) : List Char :=
  "// row".data ++ natDigits r ++ " |".data
    ++ (List.range cols).flatMap (fun _ => " latq_1 |".data)

/-- The dashed border line under each diagram row. -/
def storeDashLine (cols : ℕ) : List Char :=
  "//      +".data ++ (List.range cols).flatMap (fun _ => "--------+".data)

/-- One full diagram row as appended by the row loop. -/
def storeDiagRow (cols r : ℕ) : List Char :=
  storeRowHead cols r ++ '\n' :: (storeDashLine cols ++ ['\n'])

/-- The text built before the `lines[-2]` dash-replacement. -/
def storeT1 (rows cols : ℕ) : List Char :=
  storeHeader (rows * cols) ++ storeDiagHeader cols
    ++ (List.range rows).flatMap (storeDiagRow cols)

/-- Python `s.replace("--", "==")`: left-to-right non-overlapping. -/
def replaceDashes : List Char → List Char
  | [] => []
  | [c] => [c]
  | c :: d :: rest =>
    if c = '-' ∧ d = '-' then '=' :: '=' :: replaceDashes rest
    else c :: replaceDashes (d :: rest)

/-- Python `s.split("\n")`. -/
def splitNL : List Char → List (List Char)
  | [] => [[]]
  | c :: rest =>
    if c = '\n' then [] :: splitNL rest
    else (c :: (splitNL rest).headD []) :: (splitNL rest).tail

/-- Python `"\n".join(lines)`. -/
def joinNL : List (List Char) → List Char
  | [] => []
  | [x] => x
  | x :: xs => x ++ '\n' :: joinNL xs

/-- The text after the `lines[-2]` dash-replacement step:
`lines = t1.split('\n')`, replace `--`→`==` in `lines[-2]`, re-join. -/
def storeT2 (rows cols : ℕ) : List Char :=
  let lines := splitNL (storeT1 rows cols)
  joinNL (lines.set (lines.length - 2) (replaceDashes (lines.getD (lines.length - 2) [])))

/-- One row-data input port line. -/
def storeInputLine (r : ℕ) : List Char :=
  "    input  wire dat".data ++ natDigits r ++ ",     // Data input for row ".data
    ++ natDigits r ++ "\n".data

/-- One column-capture input port line. -/
def storeCapLine (c : ℕ) : List Char :=
  "    input  wire cap".data ++ natDigits c ++ ",     // Capture data for column ".data
    ++ natDigits c ++ "\n".data

/-- One latch instantiation block (`index = r*cols + c`). -/
def storeLatch (cols r c : ℕ) : List Char :=
  "    gf180mcu_fd_sc_mcu7t5v0__latq_1 dff_r".data ++ natDigits r ++ "c".data
    ++ natDigits c ++ " (\n        .D(dat".data ++ natDigits r
    ++ "),\n        .E(cap".data ++ natDigits c ++ "),\n        .Q(out[".data
    ++ natDigits (r * cols + c) ++ "])\n    );\n\n".data

/-- `generate_store_module rows cols`: the full generated Verilog text. -/
def generate_store_module (rows cols : ℕ) : List Char :=
  storeT2 rows cols
    ++ "//\nmodule store_".data ++ natDigits rows ++ "x".data ++ natDigits cols
    ++ " (\n".data
    ++ (List.range rows).flatMap storeInputLine
    ++ (List.range cols).flatMap storeCapLine
    ++ "    output wire [0:".data ++ intDigits ((rows : ℤ) * (cols : ℤ) - 1)
    ++ "] out  // Stored data output\n".data
    ++ ");\n\n".data
    ++ (List.range rows).flatMap (fun r => (List.range cols).flatMap (storeLatch cols r))
    ++ "endmodule\n".data

/-! Structure of the `split`/`set`/`join` transformation. -/

theorem splitNL_ne_nil : ∀ l, splitNL l ≠ []
  | [] => by simp [splitNL]
  | c :: rest => by
    rw [splitNL]
    split <;> simp

theorem splitNL_no_nl : ∀ {l : List Char}, (∀ c ∈ l, c ≠ '\n') → splitNL l = [l]
  | [], _ => rfl
  | c :: rest, h => by
    rw [splitNL, if_neg (h c (List.mem_cons_self c rest)),
      splitNL_no_nl (fun x hx => h x (List.mem_cons_of_mem c hx))]
    rfl

theorem splitNL_append_line {L : List Char} (hL : ∀ c ∈ L, c ≠ '\n') :
    ∀ X : List Char, splitNL (X ++ '\n' :: L) = splitNL X ++ [L]
  | [] => by
    rw [List.nil_append]
    rw [show splitNL ('\n' :: L) = [] :: splitNL L from by rw [splitNL]; simp]
    rw [splitNL_no_nl hL]
    rfl
  | c :: X' => by
    rw [List.cons_append, splitNL, splitNL]
    by_cases hc : c = '\n'
    · rw [if_pos hc, if_pos hc, splitNL_append_line hL X']
      rfl
    · rw [if_neg hc, if_neg hc, splitNL_append_line hL X']
      obtain ⟨h0, t0, ht0⟩ : ∃ h0 t0, splitNL X' = h0 :: t0 := by
        cases hsp : splitNL X' with
        | nil => exact absurd hsp (splitNL_ne_nil X')
        | cons a b => exact ⟨a, b, rfl⟩
      rw [ht0]
      simp

theorem joinNL_splitNL : ∀ l : List Char, joinNL (splitNL l) = l
  | [] => rfl
  | c :: rest => by
    rw [splitNL]
    obtain ⟨h0, t0, ht0⟩ : ∃ h0 t0, splitNL rest = h0 :: t0 := by
      cases hsp : splitNL rest with
      | nil => exact absurd hsp (splitNL_ne_nil rest)
      | cons a b => exact ⟨a, b, rfl⟩
    have hrec := joinNL_splitNL rest
    rw [ht0] at hrec
    by_cases hc : c = '\n'
    · rw [if_pos hc, ht0]
      rw [show joinNL ([] :: h0 :: t0) = [] ++ '\n' :: joinNL (h0 :: t0) from rfl, hrec, hc]
      rfl
    · rw [if_neg hc, ht0]
      simp only [List.headD_cons, List.tail_cons]
      cases t0 with
      | nil =>
        rw [show joinNL [c :: h0] = c :: h0 from rfl]
        rw [show joinNL [h0] = h0 from rfl] at hrec
        rw [hrec]
      | cons y t' =>
        rw [show joinNL ((c :: h0) :: y :: t') = (c :: h0) ++ '\n' :: joinNL (y :: t')
          from rfl]
        rw [show joinNL (h0 :: y :: t') = h0 ++ '\n' :: joinNL (y :: t') from rfl] at hrec
        rw [← hrec]
        rfl

theorem joinNL_append_two (y z : List Char) :
    ∀ xs : List (List Char), xs ≠ [] → joinNL (xs ++ [y, z]) = joinNL xs ++ '\n' :: (y ++ '\n' :: z)
  | [], h => absurd rfl h
  | [x], _ => by
    rw [show ([x] ++ [y, z]) = [x, y, z] from rfl]
    rw [show joinNL [x, y, z] = x ++ '\n' :: joinNL [y, z] from rfl,
      show joinNL [y, z] = y ++ '\n' :: joinNL [z] from rfl]
    rfl
  | x :: x' :: xs'', _ => by
    rw [show ((x :: x' :: xs'') ++ [y, z]) = x :: ((x' :: xs'') ++ [y, z]) from rfl]
    rw [show joinNL (x :: (x' :: xs'' ++ [y, z])) = x ++ '\n' :: joinNL (x' :: xs'' ++ [y, z])
      from by cases xs'' <;> rfl]
    rw [joinNL_append_two y z (x' :: xs'') (by simp)]
    rw [show joinNL (x :: x' :: xs'') = x ++ '\n' :: joinNL (x' :: xs'') from rfl]
    simp

theorem getD_append_length {α : Type} (d y : α) (t : List α) :
    ∀ l : List α, (l ++ y :: t).getD l.length d = y
  | [] => rfl
  | x :: l' => by
    rw [List.cons_append]
    exact getD_append_length d y t l'

theorem set_append_length {α : Type} (v y : α) (t : List α) :
    ∀ l : List α, (l ++ y :: t).set l.length v = l ++ v :: t
  | [] => rfl
  | x :: l' => by
    rw [List.cons_append, List.length_cons, List.set_cons_succ, set_append_length v y t l',
      List.cons_append]

theorem storeDashLine_chars (cols : ℕ) : ∀ c ∈ storeDashLine cols, c ∈ "/ +-".data := by
  intro c hc
  unfold storeDashLine at hc
  rcases List.mem_append.mp hc with h | h
  · exact (by decide : ∀ x ∈ "//      +".data, x ∈ "/ +-".data) c h
  · rw [List.mem_flatMap] at h
    obtain ⟨i, -, hm⟩ := h
    exact (by decide : ∀ x ∈ "--------+".data, x ∈ "/ +-".data) c hm

theorem replaceDashes_chars : ∀ l : List Char, ∀ c ∈ replaceDashes l, c ∈ l ∨ c = '='
  | [] => by simp [replaceDashes]
  | [x] => by simp [replaceDashes]
  | x :: d :: rest => by
    intro c hc
    rw [replaceDashes] at hc
    by_cases h : x = '-' ∧ d = '-'
    · rw [if_pos h] at hc
      rcases List.mem_cons.mp hc with rfl | hc2
      · right; rfl
      rcases List.mem_cons.mp hc2 with rfl | hc3
      · right; rfl
      rcases replaceDashes_chars rest c hc3 with hm | he
      · left; exact List.mem_cons_of_mem x (List.mem_cons_of_mem d hm)
      · right; exact he
    · rw [if_neg h] at hc
      rcases List.mem_cons.mp hc with rfl | hc2
      · left; exact List.mem_cons_self c _
      rcases replaceDashes_chars (d :: rest) c hc2 with hm | he
      · left; exact List.mem_cons_of_mem x hm
      · right; exact he

theorem replaceDashes_dashLine_chars (cols : ℕ) :
    ∀ c ∈ replaceDashes (storeDashLine cols), c ∈ "/ +-=".data := by
  intro c hc
  rcases replaceDashes_chars _ c hc with hm | rfl
  · have := storeDashLine_chars cols c hm
    exact (by decide : ∀ x ∈ "/ +-".data, x ∈ "/ +-=".data) c this
  · decide

/-- The split/replace/join step rewrites exactly the last dashed border
line of the diagram. -/
theorem storeT2_eq (rows cols : ℕ) (hr : 1 ≤ rows) :
    storeT2 rows cols =
      (storeHeader (rows * cols) ++ storeDiagHeader cols
        ++ (List.range (rows - 1)).flatMap (storeDiagRow cols)
        ++ storeRowHead cols (rows - 1))
      ++ '\n' :: (replaceDashes (storeDashLine cols) ++ ['\n']) := by
  obtain ⟨rows', rfl⟩ : ∃ r', rows = r' + 1 := ⟨rows - 1, by omega⟩
  simp only [Nat.add_sub_cancel]
  have hT1 : storeT1 (rows' + 1) cols =
      ((storeHeader ((rows' + 1) * cols) ++ storeDiagHeader cols
        ++ (List.range rows').flatMap (storeDiagRow cols)
        ++ storeRowHead cols rows')
       ++ '\n' :: storeDashLine cols) ++ ['\n'] := by
    rw [storeT1, List.range_succ, List.flatMap_append,
      show [rows'].flatMap (storeDiagRow cols) = storeDiagRow cols rows' by simp,
      storeDiagRow]
    simp [List.append_assoc]
  have hdashnl : ∀ c ∈ storeDashLine cols, c ≠ '\n' := fun c hc h =>
    (by decide : ('\n' : Char) ∉ "/ +-".data) (h ▸ storeDashLine_chars cols c hc)
  have hsplit : splitNL (storeT1 (rows' + 1) cols) =
      splitNL (storeHeader ((rows' + 1) * cols) ++ storeDiagHeader cols
        ++ (List.range rows').flatMap (storeDiagRow cols)
        ++ storeRowHead cols rows')
      ++ [storeDashLine cols, []] := by
    rw [hT1, show (((storeHeader ((rows' + 1) * cols) ++ storeDiagHeader cols
        ++ (List.range rows').flatMap (storeDiagRow cols)
        ++ storeRowHead cols rows')
       ++ '\n' :: storeDashLine cols) ++ ['\n']) =
       ((storeHeader ((rows' + 1) * cols) ++ storeDiagHeader cols
        ++ (List.range rows').flatMap (storeDiagRow cols)
        ++ storeRowHead cols rows')
       ++ '\n' :: storeDashLine cols) ++ '\n' :: [] from rfl,
      splitNL_append_line (by simp),
      splitNL_append_line hdashnl]
    simp
  unfold storeT2
  rw [hsplit]
  dsimp only
  have hlen : (splitNL (storeHeader ((rows' + 1) * cols) ++ storeDiagHeader cols
      ++ (List.range rows').flatMap (storeDiagRow cols)
      ++ storeRowHead cols rows') ++ [storeDashLine cols, []]).length - 2 =
      (splitNL (storeHeader ((rows' + 1) * cols) ++ storeDiagHeader cols
      ++ (List.range rows').flatMap (storeDiagRow cols)
      ++ storeRowHead cols rows')).length := by
    rw [List.length_append]
    simp
  rw [hlen,
    show ∀ t : List (List Char), t ++ [storeDashLine cols, []] =
      t ++ storeDashLine cols :: [[]] from fun t => rfl,
    getD_append_length, set_append_length,
    show ∀ t : List (List Char), t ++ replaceDashes (storeDashLine cols) :: [[]] =
      t ++ [replaceDashes (storeDashLine cols), []] from fun t => rfl,
    joinNL_append_two _ _ _ (splitNL_ne_nil _), joinNL_splitNL]

/-! Patterns counted in the generated text. -/

/-- The instantiated storage primitive's full name. -/
def latchInstPat : List Char := "gf180mcu_fd_sc_mcu7t5v0__latq_1".data

/-- The input-port declaration keyword (two spaces, as emitted). -/
def inputWirePat : List Char := "input  wire".data

/-- A row-data input-port declaration. -/
def inputDatPat : List Char := "input  wire dat".data

/-- A column-capture input-port declaration. -/
def inputCapPat : List Char := "input  wire cap".data

/-- Membership in a pattern never happens for characters drawn from a
disjoint alphabet: counting form. -/
theorem countOcc_no_witness {p U : List Char} {w : Char} (hw : w ∈ p) (hU : w ∉ U)
    {s : List Char} (hs : ∀ c ∈ s, c ∈ U) : countOcc p s = 0 :=
  countOcc_eq_zero hw (fun c hc h => hU (h ▸ hs c hc))

theorem storeDiagHeader_chars (cols : ℕ) :
    ∀ ch ∈ storeDiagHeader cols, ch ∈ "/ col0123456789=+\n".data := by
  intro ch hc
  unfold storeDiagHeader at hc
  simp only [List.append_assoc, List.mem_append] at hc
  rcases hc with h | h | h | h | h
  · exact (by decide : ∀ x ∈ "//         ".data, x ∈ "/ col0123456789=+\n".data) ch h
  · rw [List.mem_flatMap] at h
    obtain ⟨i, -, hm⟩ := h
    rcases List.mem_append.mp hm with h2 | h2
    · exact (by decide : ∀ x ∈ "col".data, x ∈ "/ col0123456789=+\n".data) ch h2
    · rcases List.mem_append.mp h2 with h3 | h3
      · have := natDigits_mem ch h3
        exact (by decide : ∀ x ∈ "0123456789".data, x ∈ "/ col0123456789=+\n".data) ch this
      · exact (by decide : ∀ x ∈ "     ".data, x ∈ "/ col0123456789=+\n".data) ch h3
  · exact (by decide : ∀ x ∈ "\n//      +".data, x ∈ "/ col0123456789=+\n".data) ch h
  · rw [List.mem_flatMap] at h
    obtain ⟨i, -, hm⟩ := h
    exact (by decide : ∀ x ∈ "========+".data, x ∈ "/ col0123456789=+\n".data) ch hm
  · exact (by decide : ∀ x ∈ "\n".data, x ∈ "/ col0123456789=+\n".data) ch h

theorem storeRowHead_chars (cols r : ℕ) :
    ∀ ch ∈ storeRowHead cols r, ch ∈ "/ row0123456789|latq_".data := by
  intro ch hc
  unfold storeRowHead at hc
  simp only [List.append_assoc, List.mem_append] at hc
  rcases hc with h | h | h | h
  · exact (by decide : ∀ x ∈ "// row".data, x ∈ "/ row0123456789|latq_".data) ch h
  · have := natDigits_mem ch h
    exact (by decide : ∀ x ∈ "0123456789".data, x ∈ "/ row0123456789|latq_".data) ch this
  · exact (by decide : ∀ x ∈ " |".data, x ∈ "/ row0123456789|latq_".data) ch h
  · rw [List.mem_flatMap] at h
    obtain ⟨i, -, hm⟩ := h
    exact (by decide : ∀ x ∈ " latq_1 |".data, x ∈ "/ row0123456789|latq_".data) ch hm

theorem storeDiagRow_chars (cols r : ℕ) :
    ∀ ch ∈ storeDiagRow cols r, ch ∈ "/ row0123456789|latq_\n+-".data := by
  intro ch hc
  unfold storeDiagRow at hc
  rcases List.mem_append.mp hc with h | h
  · have := storeRowHead_chars cols r ch h
    exact (by decide : ∀ x ∈ "/ row0123456789|latq_".data,
      x ∈ "/ row0123456789|latq_\n+-".data) ch this
  · rcases List.mem_cons.mp h with rfl | h2
    · decide
    rcases List.mem_append.mp h2 with h3 | h3
    · have := storeDashLine_chars cols ch h3
      exact (by decide : ∀ x ∈ "/ +-".data, x ∈ "/ row0123456789|latq_\n+-".data) ch this
    · rcases List.mem_singleton.mp h3 with rfl
      decide

theorem storeLatch_chars (cols r c0 : ℕ) :
    ∀ ch ∈ storeLatch cols r c0, ch ∈ " gf180mcu_dsv7t5laqr(),.;[]\nDEQpo0123456789".data := by
  intro ch hc
  unfold storeLatch at hc
  simp only [List.append_assoc, List.mem_append] at hc
  rcases hc with h | h | h | h | h | h | h | h | h | h | h
  · exact (by decide : ∀ x ∈ "    gf180mcu_fd_sc_mcu7t5v0__latq_1 dff_r".data,
      x ∈ " gf180mcu_dsv7t5laqr(),.;[]\nDEQpo0123456789".data) ch h
  all_goals first
  | (have hdm := natDigits_mem ch h
     exact (by decide : ∀ x ∈ "0123456789".data,
       x ∈ " gf180mcu_dsv7t5laqr(),.;[]\nDEQpo0123456789".data) ch hdm)
  | exact (by decide : ∀ x ∈ "c".data,
      x ∈ " gf180mcu_dsv7t5laqr(),.;[]\nDEQpo0123456789".data) ch h
  | exact (by decide : ∀ x ∈ " (\n        .D(dat".data,
      x ∈ " gf180mcu_dsv7t5laqr(),.;[]\nDEQpo0123456789".data) ch h
  | exact (by decide : ∀ x ∈ "),\n        .E(cap".data,
      x ∈ " gf180mcu_dsv7t5laqr(),.;[]\nDEQpo0123456789".data) ch h
  | exact (by decide : ∀ x ∈ "),\n        .Q(out[".data,
      x ∈ " gf180mcu_dsv7t5laqr(),.;[]\nDEQpo0123456789".data) ch h
  | exact (by decide : ∀ x ∈ "])\n    );\n\n".data,
      x ∈ " gf180mcu_dsv7t5laqr(),.;[]\nDEQpo0123456789".data) ch h

theorem storeInputLine_chars (r : ℕ) :
    ∀ ch ∈ storeInputLine r, ch ∈ " inputwreda,/Dfo0123456789\n".data := by
  intro ch hc
  unfold storeInputLine at hc
  simp only [List.append_assoc, List.mem_append] at hc
  rcases hc with h | h | h | h | h
  · exact (by decide : ∀ x ∈ "    input  wire dat".data,
      x ∈ " inputwreda,/Dfo0123456789\n".data) ch h
  · have := natDigits_mem ch h
    exact (by decide : ∀ x ∈ "0123456789".data, x ∈ " inputwreda,/Dfo0123456789\n".data) ch this
  · exact (by decide : ∀ x ∈ ",     // Data input for row ".data,
      x ∈ " inputwreda,/Dfo0123456789\n".data) ch h
  · have := natDigits_mem ch h
    exact (by decide : ∀ x ∈ "0123456789".data, x ∈ " inputwreda,/Dfo0123456789\n".data) ch this
  · exact (by decide : ∀ x ∈ "\n".data, x ∈ " inputwreda,/Dfo0123456789\n".data) ch h

theorem storeCapLine_chars (c0 : ℕ) :
    ∀ ch ∈ storeCapLine c0, ch ∈ " inputwirecaCdfolmn,/0123456789\n".data := by
  intro ch hc
  unfold storeCapLine at hc
  simp only [List.append_assoc, List.mem_append] at hc
  rcases hc with h | h | h | h | h
  · exact (by decide : ∀ x ∈ "    input  wire cap".data,
      x ∈ " inputwirecaCdfolmn,/0123456789\n".data) ch h
  · have := natDigits_mem ch h
    exact (by decide : ∀ x ∈ "0123456789".data,
      x ∈ " inputwirecaCdfolmn,/0123456789\n".data) ch this
  · exact (by decide : ∀ x ∈ ",     // Capture data for column ".data,
      x ∈ " inputwirecaCdfolmn,/0123456789\n".data) ch h
  · have := natDigits_mem ch h
    exact (by decide : ∀ x ∈ "0123456789".data,
      x ∈ " inputwirecaCdfolmn,/0123456789\n".data) ch this
  · exact (by decide : ∀ x ∈ "\n".data, x ∈ " inputwirecaCdfolmn,/0123456789\n".data) ch h

/-- Counting a digit-free pattern over `A ++ digits ++ L ++ digits ++ NL`. -/
theorem countOcc_digitline {p : List Char} (hp : p ≠ [])
    (hd : ∀ c ∈ "0123456789".data, c ∉ p) (A L NL : List Char) (x y : ℕ) :
    countOcc p (A ++ natDigits x ++ L ++ natDigits y ++ NL) =
      countOcc p A + countOcc p L + countOcc p NL := by
  have hdx : ∀ c ∈ natDigits x, c ∉ p := fun c hc => hd c (natDigits_mem c hc)
  have hdy : ∀ c ∈ natDigits y, c ∉ p := fun c hc => hd c (natDigits_mem c hc)
  rw [show (A ++ natDigits x ++ L ++ natDigits y ++ NL) =
      A ++ natDigits x ++ (L ++ natDigits y ++ NL) by simp [List.append_assoc],
    countOcc_split_mid hp (natDigits_ne_nil x) hdx A,
    countOcc_split_mid hp (natDigits_ne_nil y) hdy L]
  ring

theorem countOcc_storeHeader_digitfree {p : List Char} (hp : p ≠ [])
    (hd : ∀ c ∈ "0123456789".data, c ∉ p)
    (hA : countOcc p "// Description: ".data = 0)
    (hL : countOcc p " bits of storage.\n//\n// Contains ".data = 0)
    (hN : countOcc p " latches in a row/column configuration.\n//\n".data = 0)
    (n : ℕ) : countOcc p (storeHeader n) = 0 := by
  unfold storeHeader
  rw [countOcc_digitline hp hd _ _ _ n n, hA, hL, hN]

/-- The latch-instance pattern occurs nowhere in the file header: each
`'g'` there is followed by a non-`'f'` character.  Proved by splitting
at the spaces flanking the numerals (no space occurs in the pattern). -/
theorem countOcc_storeHeader_inst (n : ℕ) : countOcc latchInstPat (storeHeader n) = 0 := by
  have hp : latchInstPat ≠ [] := by decide
  have hsp : ' ' ∉ latchInstPat := by decide
  have hshape : storeHeader n =
      "// Description:".data ++ ' ' :: (natDigits n ++
        (' ' :: ("bits of storage.\n//\n// Contains".data ++
          (' ' :: (natDigits n ++ (' ' :: " latches in a row/column configuration.\n//\n".data.tail)))))) := by
    unfold storeHeader
    simp [List.append_assoc]
  rw [hshape, countOcc_sep_char hp hsp, countOcc_sep_char hp hsp,
    countOcc_sep_char hp hsp, countOcc_sep_char hp hsp]
  have hdig : ∀ m : ℕ, countOcc latchInstPat (natDigits m) = 0 := fun m =>
    countOcc_no_witness (by decide : 'g' ∈ latchInstPat)
      (by decide : 'g' ∉ "0123456789".data) natDigits_mem
  rw [hdig,
    (by decide : countOcc latchInstPat "// Description:".data = 0),
    (by decide : countOcc latchInstPat "bits of storage.\n//\n// Contains".data = 0),
    (by decide :
      countOcc latchInstPat " latches in a row/column configuration.\n//\n".data.tail = 0)]

/-- The latch-instance pattern occurs exactly once per instantiation
block. -/
theorem countOcc_storeLatch_inst (cols r c0 : ℕ) :
    countOcc latchInstPat (storeLatch cols r c0) = 1 := by
  have hp : latchInstPat ≠ [] := by decide
  have hsp : ' ' ∉ latchInstPat := by decide
  have hshape : storeLatch cols r c0 =
      "    gf180mcu_fd_sc_mcu7t5v0__latq_1".data ++ ' ' ::
        ("dff_r".data ++ natDigits r ++ "c".data ++ natDigits c0
          ++ " (\n        .D(dat".data ++ natDigits r ++ "),\n        .E(cap".data
          ++ natDigits c0 ++ "),\n        .Q(out[".data
          ++ natDigits (r * cols + c0) ++ "])\n    );\n\n".data) := by
    unfold storeLatch
    simp [List.append_assoc]
  rw [hshape, countOcc_sep_char hp hsp,
    (by decide : countOcc latchInstPat "    gf180mcu_fd_sc_mcu7t5v0__latq_1".data = 1)]
  have hrest : countOcc latchInstPat ("dff_r".data ++ natDigits r ++ "c".data ++ natDigits c0
      ++ " (\n        .D(dat".data ++ natDigits r ++ "),\n        .E(cap".data
      ++ natDigits c0 ++ "),\n        .Q(out[".data
      ++ natDigits (r * cols + c0) ++ "])\n    );\n\n".data) = 0 := by
    apply countOcc_no_witness (by decide : 'g' ∈ latchInstPat)
      (by decide : 'g' ∉ " dfremctuv_(),.;[]\nDEQpo0123456789aqs".data)
    intro ch hc
    simp only [List.append_assoc, List.mem_append] at hc
    rcases hc with h | h | h | h | h | h | h | h | h | h | h
    · exact (by decide : ∀ x ∈ "dff_r".data,
        x ∈ " dfremctuv_(),.;[]\nDEQpo0123456789aqs".data) ch h
    all_goals first
    | (have hdm := natDigits_mem ch h
       exact (by decide : ∀ x ∈ "0123456789".data,
         x ∈ " dfremctuv_(),.;[]\nDEQpo0123456789aqs".data) ch hdm)
    | exact (by decide : ∀ x ∈ "c".data,
        x ∈ " dfremctuv_(),.;[]\nDEQpo0123456789aqs".data) ch h
    | exact (by decide : ∀ x ∈ " (\n        .D(dat".data,
        x ∈ " dfremctuv_(),.;[]\nDEQpo0123456789aqs".data) ch h
    | exact (by decide : ∀ x ∈ "),\n        .E(cap".data,
        x ∈ " dfremctuv_(),.;[]\nDEQpo0123456789aqs".data) ch h
    | exact (by decide : ∀ x ∈ "),\n        .Q(out[".data,
        x ∈ " dfremctuv_(),.;[]\nDEQpo0123456789aqs".data) ch h
    | exact (by decide : ∀ x ∈ "])\n    );\n\n".data,
        x ∈ " dfremctuv_(),.;[]\nDEQpo0123456789aqs".data) ch h
  rw [hrest]

/-- Counting a digit/minus-free pattern over the output-port line. -/
theorem countOcc_outline {p : List Char} (hp : p ≠ [])
    (hd : ∀ c ∈ "-0123456789".data, c ∉ p)
    (hA : countOcc p "    output wire [0:".data = 0)
    (hB : countOcc p "] out  // Stored data output\n".data = 0)
    (z : ℤ) : countOcc p ("    output wire [0:".data ++ intDigits z
      ++ "] out  // Stored data output\n".data) = 0 := by
  rw [countOcc_split_mid hp (intDigits_ne_nil z)
    (fun c hc => hd c (intDigits_mem c hc)), hA, hB]

theorem countOcc_outline_inst (z : ℤ) :
    countOcc latchInstPat ("    output wire [0:".data ++ intDigits z
      ++ "] out  // Stored data output\n".data) = 0 := by
  apply countOcc_no_witness (by decide : 'g' ∈ latchInstPat)
    (by decide : 'g' ∉ " outpwire[:]-/Sda\n0123456789".data)
  intro ch hc
  simp only [List.append_assoc, List.mem_append] at hc
  rcases hc with h | h | h
  · exact (by decide : ∀ x ∈ "    output wire [0:".data,
      x ∈ " outpwire[:]-/Sda\n0123456789".data) ch h
  · have := intDigits_mem ch h
    exact (by decide : ∀ x ∈ "-0123456789".data,
      x ∈ " outpwire[:]-/Sda\n0123456789".data) ch this
  · exact (by decide : ∀ x ∈ "] out  // Stored data output\n".data,
      x ∈ " outpwire[:]-/Sda\n0123456789".data) ch h

theorem countOcc_mdl_inst (rows cols : ℕ) :
    countOcc latchInstPat ("//\nmodule store_".data ++ natDigits rows ++ "x".data
      ++ natDigits cols ++ " (\n".data) = 0 := by
  apply countOcc_no_witness (by decide : 'g' ∈ latchInstPat)
    (by decide : 'g' ∉ "/\nmodulestr_x (0123456789".data)
  intro ch hc
  simp only [List.append_assoc, List.mem_append] at hc
  rcases hc with h | h | h | h | h
  · exact (by decide : ∀ x ∈ "//\nmodule store_".data,
      x ∈ "/\nmodulestr_x (0123456789".data) ch h
  all_goals first
  | (have hdm := natDigits_mem ch h
     exact (by decide : ∀ x ∈ "0123456789".data,
       x ∈ "/\nmodulestr_x (0123456789".data) ch hdm)
  | exact (by decide : ∀ x ∈ "x".data, x ∈ "/\nmodulestr_x (0123456789".data) ch h
  | exact (by decide : ∀ x ∈ " (\n".data, x ∈ "/\nmodulestr_x (0123456789".data) ch h

/-! Ends-with-newline facts for the chunks of the generated text. -/

theorem ends_nl_of_append {A lit lit' : List Char} (h : lit = lit' ++ ['\n']) :
    ∃ b, A ++ lit = b ++ ['\n'] :=
  ⟨A ++ lit', by rw [h, ← List.append_assoc]⟩

theorem storeHeader_ends (n : ℕ) : ∃ b, storeHeader n = b ++ ['\n'] := by
  unfold storeHeader
  exact ends_nl_of_append
    (show (" latches in a row/column configuration.\n//\n".data : List Char) =
      " latches in a row/column configuration.\n//".data ++ ['\n'] by decide)

theorem storeDiagHeader_ends (cols : ℕ) : ∃ b, storeDiagHeader cols = b ++ ['\n'] := by
  unfold storeDiagHeader
  exact ends_nl_of_append (show ("\n".data : List Char) = [] ++ ['\n'] by decide)

theorem storeDiagRow_ends (cols r : ℕ) : ∃ b, storeDiagRow cols r = b ++ ['\n'] := by
  unfold storeDiagRow
  refine ⟨storeRowHead cols r ++ '\n' :: storeDashLine cols, ?_⟩
  simp

theorem storeInputLine_ends (r : ℕ) : ∃ b, storeInputLine r = b ++ ['\n'] := by
  unfold storeInputLine
  exact ends_nl_of_append (show ("\n".data : List Char) = [] ++ ['\n'] by decide)

theorem storeCapLine_ends (c0 : ℕ) : ∃ b, storeCapLine c0 = b ++ ['\n'] := by
  unfold storeCapLine
  exact ends_nl_of_append (show ("\n".data : List Char) = [] ++ ['\n'] by decide)

theorem storeLatch_ends (cols r c0 : ℕ) : ∃ b, storeLatch cols r c0 = b ++ ['\n'] := by
  unfold storeLatch
  exact ends_nl_of_append
    (show ("])\n    );\n\n".data : List Char) = "])\n    );\n".data ++ ['\n'] by decide)

theorem flatMap_ends {f : ℕ → List Char} (h : ∀ i, ∃ g, f i = g ++ ['\n']) :
    ∀ n, 1 ≤ n → ∃ b, (List.range n).flatMap f = b ++ ['\n']
  | 0, h0 => by omega
  | n + 1, _ => by
    rw [List.range_succ, List.flatMap_append,
      show [n].flatMap f = f n by simp]
    exact ends_nl_of_append (h n).choose_spec

/-- Master counting lemma: the count of a pattern over the whole
generated text, given its count on each kind of chunk. -/
theorem countOcc_generate (p : List Char) (hp : p ≠ []) (hnl : '\n' ∉ p)
    {rows cols : ℕ} (hr : 1 ≤ rows) (hc : 1 ≤ cols)
    (kIn kCap kLatch : ℕ)
    (hSH : countOcc p (storeHeader (rows * cols)) = 0)
    (hDH : countOcc p (storeDiagHeader cols) = 0)
    (hDR : ∀ r, countOcc p (storeDiagRow cols r) = 0)
    (hRH : countOcc p (storeRowHead cols (rows - 1)) = 0)
    (hRL : countOcc p (replaceDashes (storeDashLine cols)) = 0)
    (hMDL : countOcc p ("//\nmodule store_".data ++ natDigits rows ++ "x".data
      ++ natDigits cols ++ " (\n".data) = 0)
    (hIN : ∀ r, countOcc p (storeInputLine r) = kIn)
    (hCAP : ∀ c0, countOcc p (storeCapLine c0) = kCap)
    (hOUT : countOcc p ("    output wire [0:".data ++ intDigits ((rows : ℤ) * (cols : ℤ) - 1)
      ++ "] out  // Stored data output\n".data) = 0)
    (hCL : countOcc p ");\n\n".data = 0)
    (hLB : ∀ r c0, countOcc p (storeLatch cols r c0) = kLatch)
    (hEND : countOcc p "endmodule\n".data = 0) :
    countOcc p (generate_store_module rows cols) =
      rows * kIn + cols * kCap + rows * cols * kLatch := by
  have hG : generate_store_module rows cols =
      storeHeader (rows * cols) ++ (storeDiagHeader cols ++
        ((List.range (rows - 1)).flatMap (storeDiagRow cols) ++
          (storeRowHead cols (rows - 1) ++ '\n' ::
            (replaceDashes (storeDashLine cols) ++ '\n' ::
              (("//\nmodule store_".data ++ natDigits rows ++ "x".data
                ++ natDigits cols ++ " (\n".data) ++
                ((List.range rows).flatMap storeInputLine ++
                  ((List.range cols).flatMap storeCapLine ++
                    (("    output wire [0:".data
                      ++ intDigits ((rows : ℤ) * (cols : ℤ) - 1)
                      ++ "] out  // Stored data output\n".data) ++
                      (");\n\n".data ++
                        ((List.range rows).flatMap
                            (fun r => (List.range cols).flatMap (storeLatch cols r)) ++
                          "endmodule\n".data)))))))))) := by
    rw [generate_store_module, storeT2_eq rows cols hr]
    simp [List.append_assoc]
  have hblock : ∀ r, countOcc p ((List.range cols).flatMap (storeLatch cols r)) =
      cols * kLatch := by
    intro r
    have h1 := countOcc_flatMap hp hnl cols (fun i _ => storeLatch_ends cols r i)
      (fun i _ => hLB r i) []
    rw [List.append_nil] at h1
    rw [h1]
    rfl
  rw [hG,
    countOcc_sep_block hp hnl (Or.inr (storeHeader_ends _)),
    countOcc_sep_block hp hnl (Or.inr (storeDiagHeader_ends cols)),
    countOcc_flatMap hp hnl (rows - 1) (fun i _ => storeDiagRow_ends cols i)
      (fun i _ => hDR i),
    countOcc_sep_char hp hnl,
    countOcc_sep_char hp hnl,
    countOcc_sep_block hp hnl (Or.inr (ends_nl_of_append
      (show (" (\n".data : List Char) = " (".data ++ ['\n'] by decide))),
    countOcc_flatMap hp hnl rows (fun i _ => storeInputLine_ends i) (fun i _ => hIN i),
    countOcc_flatMap hp hnl cols (fun i _ => storeCapLine_ends i) (fun i _ => hCAP i),
    countOcc_sep_block hp hnl (Or.inr (ends_nl_of_append
      (show ("] out  // Stored data output\n".data : List Char) =
        "] out  // Stored data output".data ++ ['\n'] by decide))),
    countOcc_sep_block hp hnl (Or.inr
      (⟨");\n".data, by decide⟩ : ∃ b, (");\n\n".data : List Char) = b ++ ['\n'])),
    countOcc_flatMap hp hnl rows
      (fun r _ => flatMap_ends (fun i => storeLatch_ends cols r i) cols hc)
      (fun r _ => hblock r),
    hSH, hDH, hRH, hRL, hMDL, hOUT, hCL, hEND]
  ring

/-- C2: for all `rows, cols ≥ 1`, the text generated by
`generate_store_module` contains exactly `rows*cols` instantiations of
`gf180mcu_fd_sc_mcu7t5v0__latq_1`, exactly `rows+cols` `input  wire`
port declarations, of which exactly `rows` are `dat` ports and exactly
`cols` are `cap` ports. -/
theorem generate_store_module_counts (rows cols : ℕ) (hr : 1 ≤ rows) (hc : 1 ≤ cols) :
    countOcc latchInstPat (generate_store_module rows cols) = rows * cols
  ∧ countOcc inputWirePat (generate_store_module rows cols) = rows + cols
  ∧ countOcc inputDatPat (generate_store_module rows cols) = rows
  ∧ countOcc inputCapPat (generate_store_module rows cols) = cols := by
  refine ⟨?_, ?_, ?_, ?_⟩
  · have h := countOcc_generate latchInstPat (by decide) (by decide) hr hc 0 0 1
      (countOcc_storeHeader_inst _)
      (countOcc_no_witness (by decide) (by decide : 'g' ∉ "/ col0123456789=+\n".data)
        (storeDiagHeader_chars cols))
      (fun r => countOcc_no_witness (by decide)
        (by decide : 'g' ∉ "/ row0123456789|latq_\n+-".data) (storeDiagRow_chars cols r))
      (countOcc_no_witness (by decide)
        (by decide : 'g' ∉ "/ row0123456789|latq_".data) (storeRowHead_chars cols _))
      (countOcc_no_witness (by decide) (by decide : 'g' ∉ "/ +-=".data)
        (replaceDashes_dashLine_chars cols))
      (countOcc_mdl_inst rows cols)
      (fun r => countOcc_no_witness (by decide)
        (by decide : 'g' ∉ " inputwreda,/Dfo0123456789\n".data) (storeInputLine_chars r))
      (fun c0 => countOcc_no_witness (by decide)
        (by decide : 'g' ∉ " inputwirecaCdfolmn,/0123456789\n".data) (storeCapLine_chars c0))
      (countOcc_outline_inst _)
      (by decide)
      (fun r c0 => countOcc_storeLatch_inst cols r c0)
      (by decide)
    rw [h]
    ring
  · have h := countOcc_generate inputWirePat (by decide) (by decide) hr hc 1 1 0
      (countOcc_storeHeader_digitfree (by decide) (by decide) (by decide) (by decide)
        (by decide) _)
      (countOcc_no_witness (by decide : 'i' ∈ inputWirePat)
        (by decide : 'i' ∉ "/ col0123456789=+\n".data) (storeDiagHeader_chars cols))
      (fun r => countOcc_no_witness (by decide : 'i' ∈ inputWirePat)
        (by decide : 'i' ∉ "/ row0123456789|latq_\n+-".data) (storeDiagRow_chars cols r))
      (countOcc_no_witness (by decide : 'i' ∈ inputWirePat)
        (by decide : 'i' ∉ "/ row0123456789|latq_".data) (storeRowHead_chars cols _))
      (countOcc_no_witness (by decide : 'i' ∈ inputWirePat)
        (by decide : 'i' ∉ "/ +-=".data) (replaceDashes_dashLine_chars cols))
      (by rw [countOcc_digitline (by decide) (by decide)]; decide)
      (fun r => by
        unfold storeInputLine
        rw [countOcc_digitline (by decide) (by decide)]
        decide)
      (fun c0 => by
        unfold storeCapLine
        rw [countOcc_digitline (by decide) (by decide)]
        decide)
      (countOcc_outline (by decide) (by decide) (by decide) (by decide) _)
      (by decide)
      (fun r c0 => countOcc_no_witness (by decide : 'i' ∈ inputWirePat)
        (by decide : 'i' ∉ " gf180mcu_dsv7t5laqr(),.;[]\nDEQpo0123456789".data)
        (storeLatch_chars cols r c0))
      (by decide)
    rw [h]
    ring
  · have h := countOcc_generate inputDatPat (by decide) (by decide) hr hc 1 0 0
      (countOcc_storeHeader_digitfree (by decide) (by decide) (by decide) (by decide)
        (by decide) _)
      (countOcc_no_witness (by decide : 'i' ∈ inputDatPat)
        (by decide : 'i' ∉ "/ col0123456789=+\n".data) (storeDiagHeader_chars cols))
      (fun r => countOcc_no_witness (by decide : 'i' ∈ inputDatPat)
        (by decide : 'i' ∉ "/ row0123456789|latq_\n+-".data) (storeDiagRow_chars cols r))
      (countOcc_no_witness (by decide : 'i' ∈ inputDatPat)
        (by decide : 'i' ∉ "/ row0123456789|latq_".data) (storeRowHead_chars cols _))
      (countOcc_no_witness (by decide : 'i' ∈ inputDatPat)
        (by decide : 'i' ∉ "/ +-=".data) (replaceDashes_dashLine_chars cols))
      (by rw [countOcc_digitline (by decide) (by decide)]; decide)
      (fun r => by
        unfold storeInputLine
        rw [countOcc_digitline (by decide) (by decide)]
        decide)
      (fun c0 => by
        unfold storeCapLine
        rw [countOcc_digitline (by decide) (by decide)]
        decide)
      (countOcc_outline (by decide) (by decide) (by decide) (by decide) _)
      (by decide)
      (fun r c0 => countOcc_no_witness (by decide : 'i' ∈ inputDatPat)
        (by decide : 'i' ∉ " gf180mcu_dsv7t5laqr(),.;[]\nDEQpo0123456789".data)
        (storeLatch_chars cols r c0))
      (by decide)
    rw [h]
    ring
  · have h := countOcc_generate inputCapPat (by decide) (by decide) hr hc 0 1 0
      (countOcc_storeHeader_digitfree (by decide) (by decide) (by decide) (by decide)
        (by decide) _)
      (countOcc_no_witness (by decide : 'i' ∈ inputCapPat)
        (by decide : 'i' ∉ "/ col0123456789=+\n".data) (storeDiagHeader_chars cols))
      (fun r => countOcc_no_witness (by decide : 'i' ∈ inputCapPat)
        (by decide : 'i' ∉ "/ row0123456789|latq_\n+-".data) (storeDiagRow_chars cols r))
      (countOcc_no_witness (by decide : 'i' ∈ inputCapPat)
        (by decide : 'i' ∉ "/ row0123456789|latq_".data) (storeRowHead_chars cols _))
      (countOcc_no_witness (by decide : 'i' ∈ inputCapPat)
        (by decide : 'i' ∉ "/ +-=".data) (replaceDashes_dashLine_chars cols))
      (by rw [countOcc_digitline (by decide) (by decide)]; decide)
      (fun r => by
        unfold storeInputLine
        rw [countOcc_digitline (by decide) (by decide)]
        decide)
      (fun c0 => by
        unfold storeCapLine
        rw [countOcc_digitline (by decide) (by decide)]
        decide)
      (countOcc_outline (by decide) (by decide) (by decide) (by decide) _)
      (by decide)
      (fun r c0 => countOcc_no_witness (by decide : 'i' ∈ inputCapPat)
        (by decide : 'i' ∉ " gf180mcu_dsv7t5laqr(),.;[]\nDEQpo0123456789".data)
        (storeLatch_chars cols r c0))
      (by decide)
    rw [h]
    ring

/-- Witness for C2 at `rows = cols = 1`. -/
theorem generate_store_module_counts_witness :
    countOcc latchInstPat (generate_store_module 1 1) = 1 * 1
  ∧ countOcc inputWirePat (generate_store_module 1 1) = 1 + 1
  ∧ countOcc inputDatPat (generate_store_module 1 1) = 1
  ∧ countOcc inputCapPat (generate_store_module 1 1) = 1 :=
  generate_store_module_counts 1 1 (by decide) (by decide)
